import Mathlib

/-!
Verification of the diarized-transcript post-processing core of
`yt-transcriber` (`yt_diarizer/transcriber.py`, `yt_diarizer/speaker_namer.py`)
against its natural-language specification.

JSON values are embedded as the inductive `JVal`; Python floats are embedded
as exact rationals `ℚ`.  Python operations that can raise are embedded as
`Except String` computations whose error value names the Python exception
class.  Core rational arithmetic (`Rat.add` and friends) is `@[irreducible]`
in this toolchain, so kernel-computable wrappers (`qAdd`, `qSub`, `qMul`,
`qDiv`) built on `Rat.divInt` are used inside all executable definitions and
are proved equal to the field operations.
-/

/-- A JSON-like Python value: `None`, `bool`, `float`/`int` (embedded as an
exact rational), `str`, `list`, `dict` (an insertion-ordered association
list, mirroring Python 3.7+ `dict` semantics). -/
inductive JVal where
  | null
  | bool (b : Bool)
  | num (q : ℚ)
  | str (s : String)
  | arr (xs : List JVal)
  | obj (fields : List (String × JVal))

mutual

/-- Structural equality on `JVal`, mirroring Python `==` on JSON trees. -/
def JVal.beq : JVal → JVal → Bool
  | .null, .null => true
  | .bool a, .bool b => a == b
  | .num a, .num b => a == b
  | .str a, .str b => a == b
  | .arr xs, .arr ys => JVal.beqList xs ys
  | .obj xs, .obj ys => JVal.beqObj xs ys
  | _, _ => false

/-- Elementwise `JVal.beq` on lists. -/
def JVal.beqList : List JVal → List JVal → Bool
  | [], [] => true
  | x :: xs, y :: ys => JVal.beq x y && JVal.beqList xs ys
  | _, _ => false

/-- Elementwise `JVal.beq` on association lists. -/
def JVal.beqObj : List (String × JVal) → List (String × JVal) → Bool
  | [], [] => true
  | (k, v) :: xs, (k2, v2) :: ys => k == k2 && JVal.beq v v2 && JVal.beqObj xs ys
  | _, _ => false

end

mutual

theorem JVal.eq_of_beq : ∀ {a b : JVal}, JVal.beq a b = true → a = b
  | .null, .null, _ => rfl
  | .bool a, .bool b, h => by simp [JVal.beq] at h; rw [h]
  | .num a, .num b, h => by simp [JVal.beq] at h; rw [h]
  | .str a, .str b, h => by simp [JVal.beq] at h; rw [h]
  | .arr xs, .arr ys, h =>
      congrArg JVal.arr (JVal.eqList_of_beq (by simpa [JVal.beq] using h))
  | .obj xs, .obj ys, h =>
      congrArg JVal.obj (JVal.eqObj_of_beq (by simpa [JVal.beq] using h))

theorem JVal.eqList_of_beq : ∀ {xs ys : List JVal}, JVal.beqList xs ys = true → xs = ys
  | [], [], _ => rfl
  | x :: xs, y :: ys, h => by
      simp only [JVal.beqList, Bool.and_eq_true] at h
      exact congrArg₂ List.cons (JVal.eq_of_beq h.1) (JVal.eqList_of_beq h.2)

theorem JVal.eqObj_of_beq :
    ∀ {xs ys : List (String × JVal)}, JVal.beqObj xs ys = true → xs = ys
  | [], [], _ => rfl
  | (k, v) :: xs, (k2, v2) :: ys, h => by
      simp only [JVal.beqObj, Bool.and_eq_true, beq_iff_eq] at h
      exact congrArg₂ List.cons (by rw [h.1.1, JVal.eq_of_beq h.1.2]) (JVal.eqObj_of_beq h.2)

end

mutual

theorem JVal.beq_refl : ∀ (a : JVal), JVal.beq a a = true
  | .null => rfl
  | .bool a => by simp [JVal.beq]
  | .num a => by simp [JVal.beq]
  | .str a => by simp [JVal.beq]
  | .arr xs => by simpa [JVal.beq] using JVal.beqList_refl xs
  | .obj xs => by simpa [JVal.beq] using JVal.beqObj_refl xs

theorem JVal.beqList_refl : ∀ (xs : List JVal), JVal.beqList xs xs = true
  | [] => rfl
  | x :: xs => by simp [JVal.beqList, JVal.beq_refl x, JVal.beqList_refl xs]

theorem JVal.beqObj_refl : ∀ (xs : List (String × JVal)), JVal.beqObj xs xs = true
  | [] => rfl
  | (k, v) :: xs => by simp [JVal.beqObj, JVal.beq_refl v, JVal.beqObj_refl xs]

end

instance : DecidableEq JVal := fun a b =>
  if h : JVal.beq a b = true then .isTrue (JVal.eq_of_beq h)
  else .isFalse (fun he => h (he ▸ JVal.beq_refl a))

theorem JVal.beq_iff {a b : JVal} : JVal.beq a b = true ↔ a = b :=
  ⟨JVal.eq_of_beq, fun h => h ▸ JVal.beq_refl a⟩

instance {ε α : Type _} [DecidableEq ε] [DecidableEq α] : DecidableEq (Except ε α)
  | .error e, .error f =>
    if h : e = f then .isTrue (h ▸ rfl)
    else .isFalse (fun he => by cases he; exact h rfl)
  | .error _, .ok _ => .isFalse (fun h => Except.noConfusion h)
  | .ok _, .error _ => .isFalse (fun h => Except.noConfusion h)
  | .ok x, .ok y =>
    if h : x = y then .isTrue (h ▸ rfl)
    else .isFalse (fun he => by cases he; exact h rfl)

/-- A Python `dict` with `str` keys and JSON values (a segment, a document). -/
abbrev JDict := List (String × JVal)

/-- Kernel-computable addition on `ℚ` (`Rat.add` is `@[irreducible]` here). -/
def qAdd (a b : ℚ) : ℚ := Rat.divInt (a.num * b.den + b.num * a.den) (a.den * b.den)

/-- Kernel-computable subtraction on `ℚ`. -/
def qSub (a b : ℚ) : ℚ := Rat.divInt (a.num * b.den - b.num * a.den) (a.den * b.den)

/-- Kernel-computable multiplication on `ℚ`. -/
def qMul (a b : ℚ) : ℚ := Rat.divInt (a.num * b.num) (a.den * b.den)

/-- Kernel-computable division on `ℚ` (division by zero yields zero, as in
Lean's field convention; Python raises instead, but every division in the
embedded code is guarded by a nonzero denominator). -/
def qDiv (a b : ℚ) : ℚ := Rat.divInt (a.num * b.den) (a.den * b.num)

theorem qAdd_eq (a b : ℚ) : qAdd a b = a + b := by
  unfold qAdd
  rw [Rat.divInt_eq_div]
  have ha : (a.den : ℚ) ≠ 0 := by exact_mod_cast a.den_nz
  have hb : (b.den : ℚ) ≠ 0 := by exact_mod_cast b.den_nz
  push_cast
  conv_rhs => rw [← Rat.num_div_den a, ← Rat.num_div_den b]
  field_simp

theorem qSub_eq (a b : ℚ) : qSub a b = a - b := by
  unfold qSub
  rw [Rat.divInt_eq_div]
  have ha : (a.den : ℚ) ≠ 0 := by exact_mod_cast a.den_nz
  have hb : (b.den : ℚ) ≠ 0 := by exact_mod_cast b.den_nz
  push_cast
  conv_rhs => rw [← Rat.num_div_den a, ← Rat.num_div_den b]
  field_simp
  try ring

theorem qMul_eq (a b : ℚ) : qMul a b = a * b := by
  unfold qMul
  rw [Rat.divInt_eq_div]
  have ha : (a.den : ℚ) ≠ 0 := by exact_mod_cast a.den_nz
  have hb : (b.den : ℚ) ≠ 0 := by exact_mod_cast b.den_nz
  push_cast
  conv_rhs => rw [← Rat.num_div_den a, ← Rat.num_div_den b]
  field_simp
  try ring

theorem qDiv_eq (a b : ℚ) : qDiv a b = a / b := by
  unfold qDiv
  rw [Rat.divInt_eq_div]
  rcases eq_or_ne b 0 with rfl | hb0
  · simp
  · have hbnum : b.num ≠ 0 := Rat.num_ne_zero.mpr hb0
    have ha : (a.den : ℚ) ≠ 0 := by exact_mod_cast a.den_nz
    have hbd : (b.den : ℚ) ≠ 0 := by exact_mod_cast b.den_nz
    have hbq : (b.num : ℚ) ≠ 0 := by exact_mod_cast hbnum
    push_cast
    conv_rhs => rw [← Rat.num_div_den a, ← Rat.num_div_den b]
    field_simp
    try ring

/-- Python truthiness (`bool(v)`) on JSON values. -/
def truthy : JVal → Bool
  | .null => false
  | .bool b => b
  | .num q => decide (q ≠ 0)
  | .str s => decide (s ≠ "")
  | .arr xs => decide (xs ≠ [])
  | .obj fs => decide (fs ≠ [])

/-- `d.get(k)`: the first binding of `k`, or `None` when absent (Python dicts
have unique keys, so "first" is exact). -/
def dget (d : JDict) (k : String) : JVal :=
  match d.find? (fun p => p.1 == k) with
  | some p => p.2
  | none => .null

/-- `d.get(k, dflt)`. -/
def dgetD (d : JDict) (k : String) (dflt : JVal) : JVal :=
  match d.find? (fun p => p.1 == k) with
  | some p => p.2
  | none => dflt

/-- `d[k] = v`: overwrite the binding in place (keeping its position) when the
key exists, append otherwise — Python 3.7+ `dict` assignment semantics. -/
def dset (d : JDict) (k : String) (v : JVal) : JDict :=
  match d with
  | [] => [(k, v)]
  | (k2, v2) :: rest => if k2 == k then (k2, v) :: rest else (k2, v2) :: dset rest k v

/-- Numeric value of a run of decimal digit characters (empty ↦ `none`). -/
def digitsVal : List Char → Option ℕ
  | [] => none
  | cs =>
    if cs.all Char.isDigit then
      some (cs.foldl (fun acc c => acc * 10 + (c.toNat - '0'.toNat)) 0)
    else none

/-- Python `float(<str>)` on an unsigned decimal literal: digits with an
optional fractional part (`"12"`, `"12.5"`, `"12."`, `".5"`).  This models
the decimal-literal fragment of Python's float grammar; exponents and
`inf`/`nan` spellings are outside the model and map to `none`. -/
def parseUnsignedFloat (cs : List Char) : Option ℚ :=
  let ip := cs.takeWhile Char.isDigit
  let rest := cs.dropWhile Char.isDigit
  match rest with
  | [] => (digitsVal ip).map (fun n => mkRat n 1)
  | '.' :: fp =>
    if fp.all Char.isDigit && (ip ≠ [] || fp ≠ []) then
      let ipv : ℕ := (digitsVal ip).getD 0
      let fpv : ℕ := (digitsVal fp).getD 0
      some (qAdd (mkRat ipv 1) (mkRat fpv (10 ^ fp.length)))
    else none
  | _ => none

/-- Python whitespace accepted by `float(<str>)` around the literal. -/
def isPySpace (c : Char) : Bool :=
  c == ' ' || c == '\t' || c == '\n' || c == '\r' || c == '\u000b' || c == '\u000c'

/-- Python `float(s)` for strings: strip whitespace, optional sign, decimal
literal; anything else raises `ValueError`, modelled as `none`. -/
def pyFloatOfString (s : String) : Option ℚ :=
  let cs := ((s.data.dropWhile isPySpace).reverse.dropWhile isPySpace).reverse
  match cs with
  | '+' :: r => parseUnsignedFloat r
  | '-' :: r => (parseUnsignedFloat r).map (fun q => Rat.divInt (-q.num) q.den)
  | r => parseUnsignedFloat r

/-- `_safe_float` (speaker_namer.py lines 86–90): `float(value)`, with
`TypeError`/`ValueError` caught and turned into `None`.  `float` succeeds on
numbers, `bool` (`True ↦ 1.0`, `False ↦ 0.0`) and numeric strings; it raises
on `None`, lists and dicts. -/
def safe_float : JVal → Option ℚ
  | .num q => some q
  | .bool b => some (if b then 1 else 0)
  | .str s => pyFloatOfString s
  | .null => none
  | .arr _ => none
  | .obj _ => none

/-- Python `round()` with no digits argument on an exact value: round half to
even ("banker's rounding"). -/
def pyRound (q : ℚ) : ℤ :=
  let f := q.floor
  let r := qSub q (mkRat f 1)
  if r < mkRat 1 2 then f
  else if mkRat 1 2 < r then f + 1
  else if f % 2 = 0 then f else f + 1

/-- `f"{n:0wd}"`: decimal rendering of a natural, left-padded with zeros to a
minimum width `w` (longer numbers keep all their digits). -/
def padNum (w : ℕ) (n : ℕ) : String :=
  let s := toString n
  String.mk (List.replicate (w - s.length) '0') ++ s

/-- `format_timestamp` (transcriber.py lines 13–26) on an arbitrary JSON
value (call sites pass `seg.get("start")`-like values).  `None` returns the
zero timestamp; `float(seconds)` failures are caught and give `total_ms = 0`;
negative totals clamp to 0; then the `divmod` cascade with zero-padded
2/2/2/3-wide fields. -/
def format_timestamp (v : JVal) : String :=
  if v = JVal.null then "00:00:00.000"
  else
    let total_ms : ℤ :=
      match safe_float v with
      | none => 0
      | some q => pyRound (qMul q (mkRat 1000 1))
    let ms : ℕ := if total_ms < 0 then 0 else total_ms.toNat
    let hours := ms / (3600 * 1000)
    let rem := ms % (3600 * 1000)
    let minutes := rem / (60 * 1000)
    let rem2 := rem % (60 * 1000)
    let secs := rem2 / 1000
    let msec := rem2 % 1000
    padNum 2 hours ++ ":" ++ padNum 2 minutes ++ ":" ++ padNum 2 secs ++ "." ++ padNum 3 msec

/-- Clamp a rational to `[0, 1]` (the two `if` statements in
`extract_speaker_score`'s ASR branches). -/
def clamp01 (q : ℚ) : ℚ :=
  if q < 0 then 0 else if 1 < q then 1 else q

/-- The first numeric value among the word-level keys `"speaker_prob"`,
`"prob"`, `"probability"`, `"score"`, `"confidence"` of one word dict
(the inner `for key in (...)` loop with `break`). -/
def firstWordScore (wd : JDict) : Option ℚ :=
  ["speaker_prob", "prob", "probability", "score", "confidence"].findSome?
    (fun k => safe_float (dget wd k))

/-- The per-word scores collected by the word loop: a word that is not a dict
is skipped; a word whose `"speaker"` is present (not `None`) and differs from
the target speaker is skipped; otherwise its first numeric score key, if any,
contributes. -/
def wordScores (ws : List JVal) (speaker : String) : List ℚ :=
  ws.filterMap (fun w =>
    match w with
    | .obj wd =>
      if dget wd "speaker" ≠ .null && dget wd "speaker" ≠ .str speaker then none
      else firstWordScore wd
    | _ => none)

/-- Sum of a list of rationals via the kernel-computable addition. -/
def qSum (l : List ℚ) : ℚ := l.foldr qAdd 0

/-- Step 1b of `extract_speaker_score` (speaker_namer.py lines 121–125):
`segment.get("speaker_probs")`, the `isinstance(…, dict)` guard, and the
coerced per-speaker lookup. -/
def speakerProbsSignal (segment : JDict) (speaker : String) : Option ℚ :=
  match dget segment "speaker_probs" with
  | .obj sp => safe_float (dget sp speaker)
  | _ => none

/-- Step 2 of `extract_speaker_score` (lines 134–164): the word-level score
collection — guarded by `isinstance(words, list) and words` — and the mean
over the collected scores when at least one was found. -/
def wordsSignal (segment : JDict) (speaker : String) : Option ℚ :=
  match dget segment "words" with
  | .arr ws =>
    if ws ≠ [] then
      let scores := wordScores ws speaker
      if scores ≠ [] then some (qDiv (qSum scores) (mkRat scores.length 1))
      else none
    else none
  | _ => none

/-- Step 4 of `extract_speaker_score` (lines 192–201): the duration fallback
followed by the final `return 0.0`. -/
def durationSignal (segment : JDict) : ℚ :=
  match safe_float (dget segment "start"), safe_float (dget segment "end") with
  | some s, some e => if 0 < qSub e s then qSub e s else 0
  | _, _ => 0

/-- `extract_speaker_score` (speaker_namer.py lines 93–201).  `mexp` stands
for `math.exp` on floats: `none` models `OverflowError`/`ValueError`, which
the code catches and replaces with `0.0`.  The function itself never raises:
every lookup is via `.get`, every coercion via `_safe_float`, the mean's
division is guarded by a nonempty score list, and `math.exp` is wrapped in
`try/except`. -/
def extract_speaker_score (mexp : ℚ → Option ℚ) (segment : JDict) (speaker : String) : ℚ :=
  match safe_float (dget segment "speaker_prob") with
  | some p => p
  | none =>
  match speakerProbsSignal segment speaker with
  | some p => p
  | none =>
  match safe_float (dget segment "score") with
  | some p => p
  | none =>
  match safe_float (dget segment "confidence") with
  | some p => p
  | none =>
  match wordsSignal segment speaker with
  | some m => m
  | none =>
  match safe_float (dget segment "avg_logprob") with
  | some x => clamp01 ((mexp x).getD 0)
  | none =>
  match safe_float (dget segment "no_speech_prob") with
  | some x => clamp01 (qSub 1 x)
  | none => durationSignal segment

/-- The Python exception class `float(v)` raises when `v` is not coercible:
`ValueError` for strings, `TypeError` otherwise. -/
def floatCoerceErr : JVal → String
  | .str _ => "ValueError"
  | _ => "TypeError"

/-- Stable insert: place `x` before the first element `y` with `le x y`
(ties keep the inserted — originally earlier — element first). -/
def sinsert (le : JVal × ℚ → JVal × ℚ → Bool) (x : JVal × ℚ) : List (JVal × ℚ) → List (JVal × ℚ)
  | [] => [x]
  | y :: ys => if le x y then x :: y :: ys else y :: sinsert le x ys

/-- Stable insertion sort.  CPython's `list.sort` is stable, and a stable
sort's output is uniquely determined by the comparison, so this is an exact
model of `list.sort(key=...)` on the decorated list. -/
def ssort (le : JVal × ℚ → JVal × ℚ → Bool) : List (JVal × ℚ) → List (JVal × ℚ)
  | [] => []
  | x :: xs => sinsert le x (ssort le xs)

theorem sinsert_perm (le) (x : JVal × ℚ) (s : List (JVal × ℚ)) :
    (sinsert le x s).Perm (x :: s) := by
  induction s with
  | nil => exact .refl _
  | cons y ys ih =>
    simp only [sinsert]
    split
    · exact .refl _
    · exact (ih.cons y).trans (List.Perm.swap x y ys)

theorem ssort_perm (le) (l : List (JVal × ℚ)) : (ssort le l).Perm l := by
  induction l with
  | nil => exact .refl _
  | cons x xs ih =>
    exact (sinsert_perm le x (ssort le xs)).trans (ih.cons x)

theorem sinsert_pairwise (le) (htrans : ∀ a b c, le a b = true → le b c = true → le a c = true)
    (htot : ∀ a b, le a b || le b a) (x : JVal × ℚ) (s : List (JVal × ℚ))
    (hs : s.Pairwise (fun a b => le a b = true)) :
    (sinsert le x s).Pairwise (fun a b => le a b = true) := by
  induction s with
  | nil => simp [sinsert]
  | cons y ys ih =>
    simp only [sinsert]
    rcases List.pairwise_cons.mp hs with ⟨hy, hys⟩
    split
    · rename_i hxy
      refine List.pairwise_cons.mpr ⟨?_, hs⟩
      intro z hz
      rcases List.mem_cons.mp hz with rfl | hz
      · exact hxy
      · exact htrans _ _ _ hxy (hy z hz)
    · rename_i hxy
      have hyx : le y x = true := by
        have := htot x y
        simp [Bool.or_eq_true] at this
        rcases this with h | h
        · exact absurd h hxy
        · exact h
      refine List.pairwise_cons.mpr ⟨?_, ih hys⟩
      intro z hz
      have hz2 := (sinsert_perm le x ys).mem_iff.mp hz
      rcases List.mem_cons.mp hz2 with rfl | hz2
      · exact hyx
      · exact hy z hz2

theorem ssort_pairwise (le) (htrans : ∀ a b c, le a b = true → le b c = true → le a c = true)
    (htot : ∀ a b, le a b || le b a) (l : List (JVal × ℚ)) :
    (ssort le l).Pairwise (fun a b => le a b = true) := by
  induction l with
  | nil => simp [ssort]
  | cons x xs ih => exact sinsert_pairwise le htrans htot x _ ih

theorem filter_sinsert_neg (le) (p : JVal × ℚ → Bool) (x : JVal × ℚ) (hx : p x = false)
    (s : List (JVal × ℚ)) : (sinsert le x s).filter p = s.filter p := by
  induction s with
  | nil => simp [sinsert, hx]
  | cons y ys ih =>
    simp only [sinsert]
    split
    · simp [List.filter, hx]
    · simp only [List.filter]
      cases p y <;> simp [ih]

theorem filter_sinsert_pos (le) (p : JVal × ℚ → Bool) (x : JVal × ℚ) (hx : p x = true)
    (hcond : ∀ y, p y = true → le x y = true) (s : List (JVal × ℚ)) :
    (sinsert le x s).filter p = x :: s.filter p := by
  induction s with
  | nil => simp [sinsert, hx]
  | cons y ys ih =>
    simp only [sinsert]
    split
    · simp [List.filter, hx]
    · rename_i hxy
      have hpy : p y = false := by
        cases hpy : p y
        · rfl
        · exact absurd (hcond y hpy) hxy
      simp only [List.filter, hpy]
      exact ih

/-- Any class of pairwise-tied elements keeps its original relative order
through the stable sort. -/
theorem ssort_filter (le) (p : JVal × ℚ → Bool)
    (hkey : ∀ a b, p a = true → p b = true → le a b = true) (l : List (JVal × ℚ)) :
    (ssort le l).filter p = l.filter p := by
  induction l with
  | nil => rfl
  | cons x xs ih =>
    simp only [ssort]
    cases hx : p x
    · rw [filter_sinsert_neg le p x hx, ih]
      simp [List.filter, hx]
    · rw [filter_sinsert_pos le p x hx (fun y hy => hkey x y hx hy), ih]
      simp [List.filter, hx]

/-- The sort key `float(s.get("start", 0.0))` of `segments.sort` in
`smooth_speaker_labels` (transcriber.py line 46).  A non-dict element has no
`.get` (`AttributeError`); a non-coercible start raises out of `float`.
CPython computes all keys before moving any element, so a failing key leaves
the list unchanged and propagates the exception. -/
def sortKey (v : JVal) : Except String ℚ :=
  match v with
  | .obj d =>
    match safe_float (dgetD d "start" (.num 0)) with
    | some q => .ok q
    | none => .error (floatCoerceErr (dgetD d "start" (.num 0)))
  | _ => .error "AttributeError"

/-- The in-place `segments.sort(key=lambda s: float(s.get("start", 0.0)))`:
decorate with keys (any failure propagates), stable mergesort by key,
undecorate. -/
def sortSegs (segs : List JVal) : Except String (List JVal) := do
  let pairs ← segs.mapM (fun s => do
    let k ← sortKey s
    pure (s, k))
  pure ((ssort (fun a b => decide (a.2 ≤ b.2)) pairs).map (fun p => p.1))

/-- `seg.get("speaker")` of a segment (total; segments reached by the
smoothing loop are dicts because the sort succeeded on them). -/
def spOf (v : JVal) : JVal :=
  match v with
  | .obj d => dget d "speaker"
  | _ => .null

/-- `cur["speaker"] = prev_speaker` (no-op on a non-dict, which the loop
cannot reach). -/
def setSpeaker (v : JVal) (sp : JVal) : JVal :=
  match v with
  | .obj d => .obj (dset d "speaker" sp)
  | _ => v

/-- The guarded duration computation of the smoothing loop (transcriber.py
lines 53–59): `start = float(cur.get("start", 0.0))`,
`end = float(cur.get("end", start))` — note the default for a missing `"end"`
is the already-coerced `start` — with `TypeError`/`ValueError` making the
loop `continue` (`none`); then `duration = max(0.0, end - start)`. -/
def segDur (v : JVal) : Option ℚ :=
  match v with
  | .obj d =>
    match safe_float (dgetD d "start" (.num 0)) with
    | none => none
    | some s =>
      match (match d.find? (fun p => p.1 == "end") with
             | some p => safe_float p.2
             | none => some s) with
      | none => none
      | some e => some (max 0 (qSub e s))
  | _ => none

/-- The relabel condition of one iteration of the smoothing loop: duration
computable and `≤ max_short`; both neighbour speakers truthy; neighbours
equal; current speaker not `None` and different from the neighbours'. -/
def shouldRelabel (max_short : ℚ) (prev cur next : JVal) : Bool :=
  match segDur cur with
  | none => false
  | some dur =>
    if max_short < dur then false
    else
      if !truthy (spOf prev) || !truthy (spOf next) then false
      else decide (spOf prev = spOf next) && decide (spOf cur ≠ JVal.null) &&
           decide (spOf cur ≠ spOf prev)

/-- The smoothing loop `for i in range(1, len(segments) - 1)` as a recursion
over the tail: `prev` is segment `i - 1` *after* any rewrite it received
(updates are in place and the loop moves left to right), `cur` is segment `i`
as produced by the sort, `next` is segment `i + 1` (not yet visited). -/
def smoothGo (max_short : ℚ) (prev : JVal) : List JVal → List JVal
  | cur :: next :: rest =>
    let cur2 := if shouldRelabel max_short prev cur next then setSpeaker cur (spOf prev) else cur
    cur2 :: smoothGo max_short cur2 (next :: rest)
  | rest => rest

/-- `smooth_speaker_labels` (transcriber.py lines 29–80): return the list
unchanged when it has fewer than 3 elements (before any sort); otherwise sort
by start key (exceptions propagate) and run the single smoothing pass. -/
def smooth_speaker_labels (segs : List JVal) (max_short : ℚ) : Except String (List JVal) :=
  if segs.length < 3 then .ok segs
  else do
    let ss ← sortSegs segs
    match ss with
    | [] => .ok []
    | a :: rest => .ok (a :: smoothGo max_short a rest)

/-- `str.strip()` with ASCII whitespace (the model of Python's Unicode
whitespace set, exact on ASCII text). -/
def pyStrip (s : String) : String :=
  String.mk (((s.data.dropWhile isPySpace).reverse.dropWhile isPySpace).reverse)

/-- `str(v)` as used in f-string interpolation.  Exact for strings (the only
case the specification's data model produces for `speaker`); renderings of
the other variants are a simplified stand-in for CPython `repr`-style output,
none of which any claim depends on. -/
def pyStr (v : JVal) : String :=
  match v with
  | .str s => s
  | .null => "None"
  | .bool b => if b then "True" else "False"
  | .num q => toString q.num ++ (if q.den = 1 then ".0" else "/" ++ toString q.den)
  | .arr _ => "<list>"
  | .obj _ => "<dict>"

/-- One iteration of the rendering loop of
`build_diarized_transcript_lines_from_data` (transcriber.py lines 97–105):
`seg.get` raises `AttributeError` on a non-dict; `(seg.get("text") or
"").strip()` raises `AttributeError` when `text` is a truthy non-string;
`speaker` defaults to `"UNKNOWN"` when falsy; timestamps are always
formatted. -/
def renderSeg (seg : JVal) : Except String String :=
  match seg with
  | .obj d =>
    match (if truthy (dget d "text") then dget d "text" else .str "") with
    | .str s =>
      .ok ("[" ++ format_timestamp (dget d "start") ++ " --> " ++
           format_timestamp (dget d "end") ++ "] " ++
           pyStr (if truthy (dget d "speaker") then dget d "speaker" else .str "UNKNOWN") ++
           ": " ++ pyStrip s)
    | _ => .error "AttributeError"
  | _ => .error "AttributeError"

/-- `segments = data.get("segments") or []` followed by the
`isinstance(segments, list)` guard (transcriber.py lines 90–92). -/
def extractSegments (data : JDict) : List JVal :=
  match (if truthy (dget data "segments") then dget data "segments" else .arr []) with
  | .arr xs => xs
  | _ => []

/-- The segment list the renderer walks: the extracted segments after the
unconditional smoothing pass with the default threshold 0.7. -/
def processedSegments (data : JDict) : Except String (List JVal) :=
  smooth_speaker_labels (extractSegments data) (mkRat 7 10)

/-- `build_diarized_transcript_lines_from_data` (transcriber.py lines
83–106). -/
def build_diarized_transcript_lines_from_data (data : JDict) : Except String (List String) := do
  let segs ← processedSegments data
  segs.mapM renderSeg

/-- Partial model of Python's Unicode `\w` (`re` word character): exact on
ASCII, plus the Greek and Cyrillic letter blocks (Python counts every Unicode
letter; only these scripts appear in this development). -/
def pyWordChar (c : Char) : Bool :=
  c.isAlphanum || c == '_' ||
  (0x391 ≤ c.toNat && c.toNat ≤ 0x3C9 && c.toNat ≠ 0x3A2) ||
  (0x400 ≤ c.toNat && c.toNat ≤ 0x4FF)

/-- `CYRILLIC_TO_LATIN` (speaker_namer.py lines 13–47): the fixed lowercase
Cyrillic transliteration table. -/
def CYRILLIC_TO_LATIN : List (Char × String) :=
  [('а', "a"), ('б', "b"), ('в', "v"), ('г', "g"), ('д', "d"), ('е', "e"), ('ё', "e"),
   ('ж', "zh"), ('з', "z"), ('и', "i"), ('й', "y"), ('к', "k"), ('л', "l"), ('м', "m"),
   ('н', "n"), ('о', "o"), ('п', "p"), ('р', "r"), ('с', "s"), ('т', "t"), ('у', "u"),
   ('ф', "f"), ('х', "kh"), ('ц', "ts"), ('ч', "ch"), ('ш', "sh"), ('щ', "shch"),
   ('ъ', ""), ('ы', "y"), ('ь', ""), ('э', "e"), ('ю', "yu"), ('я', "ya")]

/-- Partial model of `str.lower()` for one character: exact on ASCII and
Cyrillic (and on characters that are already lowercase or caseless, which it
maps to themselves). -/
def pyLower (c : Char) : Char :=
  if 'A' ≤ c && c ≤ 'Z' then Char.ofNat (c.toNat + 32)
  else if 0x410 ≤ c.toNat && c.toNat ≤ 0x42F then Char.ofNat (c.toNat + 0x20)
  else if c.toNat = 0x401 then Char.ofNat 0x451
  else c

/-- Partial model of `str.upper()` for one character: exact on ASCII, Greek
and Cyrillic letters (and on caseless characters). -/
def pyUpper (c : Char) : Char :=
  if 'a' ≤ c && c ≤ 'z' then Char.ofNat (c.toNat - 32)
  else if 0x3B1 ≤ c.toNat && c.toNat ≤ 0x3C9 && c.toNat ≠ 0x3C2 then Char.ofNat (c.toNat - 0x20)
  else if c.toNat = 0x3C2 then Char.ofNat 0x3A3
  else if 0x430 ≤ c.toNat && c.toNat ≤ 0x44F then Char.ofNat (c.toNat - 0x20)
  else if c.toNat = 0x451 then Char.ofNat 0x401
  else c

/-- A combining mark (the main Unicode combining-diacritics block). -/
def isCombining (c : Char) : Bool := 0x300 ≤ c.toNat && c.toNat ≤ 0x36F

/-- `_strip_diacritics` (speaker_namer.py lines 55–57): NFKD-normalize, then
drop combining marks.  NFKD is modelled as the identity, which is exact on
the ASCII, Greek and Cyrillic base letters this development reasons about
(none of which carry canonical decompositions after the Cyrillic table has
been applied). -/
def strip_diacritics (cs : List Char) : List Char := cs.filter (fun c => !isCombining c)

/-- `re.sub(r"[^\w\s-]", " ", ·)`: every character that is not a word
character, whitespace or a hyphen becomes a space. -/
def sanitizeSym (cs : List Char) : List Char :=
  cs.map (fun c => if pyWordChar c || isPySpace c || c == '-' then c else ' ')

/-- A character of the `[-\s]` class. -/
def isSpaceHyphen (c : Char) : Bool := isPySpace c || c == '-'

/-- `re.sub(r"[-\s]+", "_", ·)`: each maximal run of hyphens/whitespace
becomes one underscore (`inRun` tracks whether the current run already
emitted its underscore). -/
def collapseAux : Bool → List Char → List Char
  | _, [] => []
  | inRun, c :: rest =>
    if isSpaceHyphen c then
      if inRun then collapseAux true rest
      else '_' :: collapseAux true rest
    else c :: collapseAux false rest

/-- `str.strip("_")`. -/
def stripUnderscores (cs : List Char) : List Char :=
  (((cs.dropWhile (fun c => c == '_')).reverse.dropWhile (fun c => c == '_'))).reverse

/-- `transliterate_to_english` (speaker_namer.py lines 60–72): per-character
Cyrillic transliteration on the lowercased character (characters outside the
table pass through unchanged), diacritic stripping, symbol-to-space
substitution, run collapapsing to underscores, underscore stripping,
uppercasing. -/
def transliterate_to_english (name : String) : String :=
  let transliterated := name.data.flatMap (fun c =>
    match CYRILLIC_TO_LATIN.find? (fun p => p.1 == pyLower c) with
    | some p => p.2.data
    | none => [c])
  let ascii_like := strip_diacritics transliterated
  let sanitized := sanitizeSym ascii_like
  let collapsed := stripUnderscores (collapseAux false sanitized)
  String.mk (collapsed.map pyUpper)

/-- Whether the word-boundary `\b` after the tag holds at this continuation:
end of text, or a non-word character. -/
def boundaryOk : List Char → Bool
  | [] => true
  | c :: _ => !pyWordChar c

/-- The ten characters of one speaker tag. -/
def tagChars (d1 d2 : Char) : List Char := ['S', 'P', 'E', 'A', 'K', 'E', 'R', '_', d1, d2]

/-- The tag as a string. -/
def tagStr (d1 d2 : Char) : String := String.mk (tagChars d1 d2)

/-- `mapping.get(k)` for the `str → str` name mapping. -/
def lookupMap (m : List (String × String)) (k : String) : Option String :=
  (m.find? (fun p => p.1 == k)).map (fun p => p.2)

/-- A match of `\b(SPEAKER_\d{2})\b` anchored at the head of the text, given
that the boundary *before* the head already holds: the literal `SPEAKER_`,
two digits, and a trailing boundary.  (`\d` is modelled as ASCII digits;
Python also accepts other Unicode decimal digits, but such a tag can never
be a mapping key — the data model fixes keys to ASCII `SPEAKER_NN` — so both
semantics replace it by itself.) -/
def headTag? : List Char → Option (Char × Char × List Char)
  | 'S' :: 'P' :: 'E' :: 'A' :: 'K' :: 'E' :: 'R' :: '_' :: d1 :: d2 :: rest =>
    if d1.isDigit && d2.isDigit && boundaryOk rest then some (d1, d2, rest) else none
  | _ => none

/-- `SPEAKER_RE.sub(replacer, text)` with
`replacer = mapping.get(match, match)` (speaker_namer.py lines 284–288):
scan left to right over the *original* text (`re.sub` matches are computed
against the input; replacements never rescan), tracking in `prevW` whether
the previous character of the original text is a word character (the state
of the leading `\b`). -/
def pySub (m : List (String × String)) : List Char → Bool → List Char
  | [], _ => []
  | 'S' :: 'P' :: 'E' :: 'A' :: 'K' :: 'E' :: 'R' :: '_' :: d1 :: d2 :: rest, false =>
    if d1.isDigit && d2.isDigit && boundaryOk rest then
      ((lookupMap m (tagStr d1 d2)).getD (tagStr d1 d2)).data ++ pySub m rest true
    else
      'S' :: pySub m ('P' :: 'E' :: 'A' :: 'K' :: 'E' :: 'R' :: '_' :: d1 :: d2 :: rest) true
  | c :: rest, _ => c :: pySub m rest (pyWordChar c)

/-- `replace_speakers_in_text` (speaker_namer.py lines 284–288). -/
def replace_speakers_in_text (text : String) (mapping : List (String × String)) : String :=
  String.mk (pySub mapping text.data false)

/-- `speaker in mapping`: raises `TypeError` for unhashable values (lists,
dicts); a hashable non-string never equals a string key. -/
def hashableInMapping (v : JVal) (m : List (String × String)) : Except String Bool :=
  match v with
  | .arr _ => .error "TypeError"
  | .obj _ => .error "TypeError"
  | .str s => .ok (m.any (fun p => p.1 == s))
  | _ => .ok false

/-- One iteration of `replace_speakers_in_json`'s loop: skip non-dict
entries; test `seg.get("speaker") in mapping` (which can raise); overwrite
`seg["speaker"]` with the mapped name on a hit. -/
def replaceSegSpeaker (m : List (String × String)) (seg : JVal) : Except String JVal :=
  match seg with
  | .obj d => do
    let b ← hashableInMapping (dget d "speaker") m
    if b then
      match dget d "speaker" with
      | .str s => pure (.obj (dset d "speaker" (.str ((lookupMap m s).getD s))))
      | _ => pure seg
    else pure seg
  | _ => pure seg

/-- `replace_speakers_in_json` (speaker_namer.py lines 291–299). -/
def replace_speakers_in_json (data : JDict) (m : List (String × String)) :
    Except String JDict :=
  match dget data "segments" with
  | .arr segs => do
    let segs2 ← segs.mapM (replaceSegSpeaker m)
    pure (dset data "segments" (.arr segs2))
  | _ => pure data

/-- The sort key `seg.get("score", 0.0)` of the descending selection sort in
`build_preview_lines` (line 248).  A non-dict has no `.get`; comparing a
non-numeric key against floats raises `TypeError`.  (A list whose score
values are *all* strings would sort in Python; the claims' Scored Segments
carry float scores, and the model restricts to numeric keys.) -/
def scoreKey (seg : JVal) : Except String ℚ :=
  match seg with
  | .obj d =>
    match dgetD d "score" (.num 0) with
    | .num q => .ok q
    | .bool b => .ok (if b then 1 else 0)
    | _ => .error "TypeError"
  | _ => .error "AttributeError"

/-- The sort key `seg.get("start") or 0.0` of the chronological reorder
(line 250). -/
def startKey (seg : JVal) : Except String ℚ :=
  match seg with
  | .obj d =>
    match (if truthy (dget d "start") then dget d "start" else .num 0) with
    | .num q => .ok q
    | .bool b => .ok (if b then 1 else 0)
    | _ => .error "TypeError"
  | _ => .error "AttributeError"

/-- `f"{q:.3f}"` on an exact value: round to a thousandth (CPython formats
binary floats with round-half-even) and render with exactly three decimals. -/
def format3 (q : ℚ) : String :=
  let m := pyRound (qMul q (mkRat 1000 1))
  let a := m.natAbs
  (if m < 0 then "-" else "") ++ toString (a / 1000) ++ "." ++ padNum 3 (a % 1000)

/-- `f"{score:.3f}"` where `score = seg.get("score") or 0.0`: numbers and
bools format; other truthy values raise `ValueError` at the format spec. -/
def formatScore3 (v : JVal) : Except String String :=
  match v with
  | .num q => .ok (format3 q)
  | .bool b => .ok (format3 (if b then 1 else 0))
  | _ => .error "ValueError"

/-- One preview line (speaker_namer.py lines 253–260). -/
def renderPreview (speaker : String) (seg : JVal) : Except String String :=
  match seg with
  | .obj d => do
    let scoreStr ← formatScore3 (if truthy (dget d "score") then dget d "score" else .num 0)
    pure ("[" ++ format_timestamp (dget d "start") ++ " --> " ++
          format_timestamp (dget d "end") ++ "] " ++ speaker ++ ": " ++
          pyStr (if truthy (dget d "text") then dget d "text" else .str "") ++
          " (score=" ++ scoreStr ++ ")")
  | _ => .error "AttributeError"

/-- The descending, stable selection step of `build_preview_lines`:
`sorted(scored_segments, key=score, reverse=True)[:limit]` (`sorted` with
`reverse=True` keeps equal-key elements in their original order). -/
def topSegments (scored_segments : List JVal) (limit : ℕ) : Except String (List JVal) := do
  let pairs ← scored_segments.mapM (fun s => do
    let k ← scoreKey s
    pure (s, k))
  pure (((ssort (fun a b => decide (b.2 ≤ a.2)) pairs).map (fun p => p.1)).take limit)

/-- The in-place chronological reorder of the selected segments:
`top_segments.sort(key=lambda seg: seg.get("start") or 0.0)`. -/
def chronoSort (top : List JVal) : Except String (List JVal) := do
  let pairs ← top.mapM (fun s => do
    let k ← startKey s
    pure (s, k))
  pure ((ssort (fun a b => decide (a.2 ≤ b.2)) pairs).map (fun p => p.1))

/-- `build_preview_lines` (speaker_namer.py lines 233–264). -/
def build_preview_lines (speaker : String) (text_lines : List String)
    (scored_segments : List JVal) (limit : ℕ) : Except String (List String) :=
  if scored_segments ≠ [] then do
    let top ← topSegments scored_segments limit
    let chron ← chronoSort top
    chron.mapM (renderPreview speaker)
  else pure (text_lines.take limit)

theorem qMul_thousand (q : ℚ) : qMul q (mkRat 1000 1) = q * 1000 := by
  rw [qMul_eq]
  norm_num [Rat.mkRat_eq_div]

/-- C10: `replace_speakers_in_json` is not total over arbitrary JSON documents:
a well-formed Transcript Document whose segment carries an unhashable
(`list`) speaker value makes the membership test `speaker in mapping` raise
`TypeError` instead of skipping the segment. -/
theorem C10_replace_json_unhashable_speaker_raises :
    replace_speakers_in_json
      [("segments", JVal.arr [JVal.obj [("speaker", JVal.arr [JVal.str "x"])]])]
      [("SPEAKER_01", "HOST")] = .error "TypeError" := by decide

/-- C9 counterexample: the output is not fixed-width — at 360000 s (100 h)
the hour field takes three digits, so the rendered string is wider than the
claimed `HH:MM:SS.mmm` shape. -/
theorem C9_counterexample :
    format_timestamp (JVal.num (mkRat 360000 1)) = "100:00:00.000" ∧
    (format_timestamp (JVal.num (mkRat 360000 1))).length ≠ "00:00:00.000".length := by
  decide

/-- C9 (amended): `format_timestamp` never raises; missing (`None`),
non-convertible and negative inputs all render as `"00:00:00.000"`; a
numeric input is rounded to the nearest millisecond (ties to even, CPython
`round`) and split into hours/minutes/seconds/milliseconds, each zero-padded
to a minimum of 2/2/2/3 digits — the width is fixed only below 100 hours. -/
theorem C9_format_timestamp_amended :
    ∀ v : JVal,
      ((v = JVal.null ∨ safe_float v = none) → format_timestamp v = "00:00:00.000") ∧
      (∀ q : ℚ, v ≠ JVal.null → safe_float v = some q → pyRound (q * 1000) ≤ 0 →
        format_timestamp v = "00:00:00.000") ∧
      (∀ (q : ℚ) (hr mi se msc : ℕ), v ≠ JVal.null → safe_float v = some q →
        pyRound (q * 1000) = ((hr * 60 + mi) * 60 + se) * 1000 + msc →
        mi < 60 → se < 60 → msc < 1000 →
        format_timestamp v =
          padNum 2 hr ++ ":" ++ padNum 2 mi ++ ":" ++ padNum 2 se ++ "." ++ padNum 3 msc) := by
  intro v
  refine ⟨?_, ?_, ?_⟩
  · rintro (rfl | hn)
    · rfl
    · by_cases hv : v = JVal.null
      · subst hv; rfl
      · unfold format_timestamp
        rw [if_neg hv, hn]
        rfl
  · intro q hv hq hle
    unfold format_timestamp
    rw [if_neg hv, hq]
    simp only [qMul_thousand]
    have : (if pyRound (q * 1000) < 0 then 0 else (pyRound (q * 1000)).toNat) = 0 := by
      split
      · rfl
      · omega
    rw [this]
    rfl
  · intro q hr mi se msc hv hq hdec hmi hse hmsc
    unfold format_timestamp
    rw [if_neg hv, hq]
    simp only [qMul_thousand]
    set N := pyRound (q * 1000) with hNdef
    have hN0 : ¬ N < 0 := by omega
    rw [if_neg hN0]
    have hNt : N.toNat = ((hr * 60 + mi) * 60 + se) * 1000 + msc := by omega
    rw [hNt]
    have e1 : (((hr * 60 + mi) * 60 + se) * 1000 + msc) / (3600 * 1000) = hr := by omega
    have e2 : ((((hr * 60 + mi) * 60 + se) * 1000 + msc) % (3600 * 1000)) / (60 * 1000) = mi := by
      omega
    have e3 : (((((hr * 60 + mi) * 60 + se) * 1000 + msc) % (3600 * 1000)) % (60 * 1000)) / 1000
        = se := by omega
    have e4 : (((((hr * 60 + mi) * 60 + se) * 1000 + msc) % (3600 * 1000)) % (60 * 1000)) % 1000
        = msc := by omega
    rw [e1, e2, e3, e4]

/-- The output alphabet of the Name Normalizer claimed by the spec:
`[A-Z0-9_]*`. -/
def matchesUpperToken (s : String) : Bool :=
  s.data.all (fun c => ('A' ≤ c && c ≤ 'Z') || c.isDigit || c == '_')

/-- C6 counterexample: the Name Normalizer does not guarantee `[A-Z0-9_]*`
for every script — a Greek input `"α"` survives `\w` sanitization and
uppercases to `"Α"` (U+0391), outside ASCII. -/
theorem C6_counterexample :
    matchesUpperToken (transliterate_to_english "α") = false ∧
    transliterate_to_english "α" = String.mk [Char.ofNat 0x391] := by decide

theorem table_ascii : ∀ p ∈ CYRILLIC_TO_LATIN, ∀ c ∈ p.2.data, c.toNat < 128 := by decide

theorem ascii_pyUpper_ok : ∀ n : ℕ, n < 128 →
    pyWordChar (Char.ofNat n) = true →
    (('A' ≤ pyUpper (Char.ofNat n) && pyUpper (Char.ofNat n) ≤ 'Z') ||
      (pyUpper (Char.ofNat n)).isDigit || (pyUpper (Char.ofNat n) == '_')) = true := by
  decide

theorem collapseAux_mem : ∀ (b : Bool) (l : List Char) (c : Char), c ∈ collapseAux b l →
    c = '_' ∨ (c ∈ l ∧ isSpaceHyphen c = false) := by
  intro b l
  induction l generalizing b with
  | nil => intro c hc; simp [collapseAux] at hc
  | cons a rest ih =>
    intro c hc
    simp only [collapseAux] at hc
    split at hc
    · rename_i hsh
      split at hc
      · rcases ih _ _ hc with h | ⟨h1, h2⟩
        · exact .inl h
        · exact .inr ⟨List.mem_cons_of_mem _ h1, h2⟩
      · rcases List.mem_cons.mp hc with rfl | hc
        · exact .inl rfl
        · rcases ih _ _ hc with h | ⟨h1, h2⟩
          · exact .inl h
          · exact .inr ⟨List.mem_cons_of_mem _ h1, h2⟩
    · rename_i hsh
      rcases List.mem_cons.mp hc with rfl | hc
      · exact .inr ⟨List.mem_cons_self _ _, by simpa using hsh⟩
      · rcases ih _ _ hc with h | ⟨h1, h2⟩
        · exact .inl h
        · exact .inr ⟨List.mem_cons_of_mem _ h1, h2⟩

theorem stripUnderscores_subset {c : Char} {l : List Char} (hc : c ∈ stripUnderscores l) :
    c ∈ l := by
  unfold stripUnderscores at hc
  rw [List.mem_reverse] at hc
  have h1 := (List.dropWhile_sublist _).subset hc
  rw [List.mem_reverse] at h1
  exact (List.dropWhile_sublist _).subset h1

/-- C6 (amended): for every input whose characters are ASCII or are covered
by the Cyrillic transliteration table (after lowercasing), the Name
Normalizer's output matches `[A-Z0-9_]*`. -/
theorem C6_transliterate_ascii_cyrillic :
    ∀ name : String,
      (∀ c ∈ name.data, c.toNat < 128 ∨
        (CYRILLIC_TO_LATIN.find? (fun p => p.1 == pyLower c)).isSome = true) →
      matchesUpperToken (transliterate_to_english name) = true := by
  intro name h
  unfold transliterate_to_english matchesUpperToken
  rw [List.all_eq_true]
  intro x hx
  rcases List.mem_map.mp hx with ⟨c0, hc0, rfl⟩
  have hc1 : c0 ∈ collapseAux false (sanitizeSym (strip_diacritics
      (name.data.flatMap (fun c =>
        match CYRILLIC_TO_LATIN.find? (fun p => p.1 == pyLower c) with
        | some p => p.2.data
        | none => [c])))) := stripUnderscores_subset hc0
  rcases collapseAux_mem _ _ _ hc1 with rfl | ⟨hmem, hnsh⟩
  · decide
  · rcases List.mem_map.mp hmem with ⟨c1, hc1mem, hceq⟩
    by_cases hcond : (pyWordChar c1 || isPySpace c1 || c1 == '-') = true
    · rw [if_pos hcond] at hceq
      subst hceq
      have hascii : c1.toNat < 128 := by
        have hc2 : c1 ∈ name.data.flatMap (fun c =>
            match CYRILLIC_TO_LATIN.find? (fun p => p.1 == pyLower c) with
            | some p => p.2.data
            | none => [c]) := (List.mem_filter.mp hc1mem).1
        rcases List.mem_flatMap.mp hc2 with ⟨a, ha, hcf⟩
        cases hfind : CYRILLIC_TO_LATIN.find? (fun p => p.1 == pyLower a) with
        | none =>
          rw [hfind] at hcf
          have he : c1 = a := List.mem_singleton.mp hcf
          rcases h a ha with hc | hs
          · rw [he]; exact hc
          · rw [hfind] at hs; simp at hs
        | some p =>
          rw [hfind] at hcf
          exact table_ascii p (List.mem_of_find?_eq_some hfind) c1 hcf
      have hword : pyWordChar c1 = true := by
        rcases Bool.or_eq_true_iff.mp hcond with h1 | h2
        · rcases Bool.or_eq_true_iff.mp h1 with h3 | h4
          · exact h3
          · exfalso; rw [show isSpaceHyphen c1 = true by simp [isSpaceHyphen, h4]] at hnsh
            simp at hnsh
        · exfalso; rw [show isSpaceHyphen c1 = true by simp [isSpaceHyphen, h2]] at hnsh
          simp at hnsh
      have := ascii_pyUpper_ok c1.toNat hascii
      rw [Char.ofNat_toNat] at this
      exact this hword
    · rw [if_neg hcond] at hceq
      subst hceq
      exfalso
      rw [show isSpaceHyphen ' ' = true by decide] at hnsh
      simp at hnsh

/-- C6 witness: the spec's own example input, fully Cyrillic/ASCII. -/
theorem C6_witness :
    matchesUpperToken (transliterate_to_english "Анна-Мария Иванова") = true :=
  C6_transliterate_ascii_cyrillic "Анна-Мария Иванова" (by decide)

theorem qSum_eq (l : List ℚ) : qSum l = l.sum := by
  induction l with
  | nil => rfl
  | cons x xs ih => simp only [qSum, List.foldr, List.sum_cons] at ih ⊢; rw [qAdd_eq, ih]

theorem clamp01_eq (q : ℚ) : clamp01 q = max 0 (min 1 q) := by
  unfold clamp01
  rcases lt_trichotomy q 0 with h | h | h
  · rw [if_pos h, max_eq_left]
    exact le_trans (min_le_right _ _) (le_of_lt h)
  · subst h; norm_num
  · rw [if_neg (by linarith)]
    rcases le_or_lt q 1 with h2 | h2
    · rw [if_neg (by linarith), min_eq_right h2, max_eq_right (by linarith)]
    · rw [if_pos h2, min_eq_left (by linarith)]
      norm_num

theorem mkRat_natCast (n : ℕ) : (mkRat n 1 : ℚ) = (n : ℚ) := by
  rw [Rat.mkRat_eq_div]
  norm_num

/-- The word-level signal as the claim words it: a word qualifies when its
own speaker is absent or equals the target; each qualifying word contributes
its first numeric value among the five keys; the signal is the arithmetic
mean when at least one value was collected. -/
def specWordSignal (seg : JDict) (sp : String) : Option ℚ :=
  match dget seg "words" with
  | .arr ws =>
    let scores := ws.filterMap (fun w =>
      match w with
      | .obj wd =>
        if dget wd "speaker" = JVal.null ∨ dget wd "speaker" = JVal.str sp then
          ["speaker_prob", "prob", "probability", "score", "confidence"].findSome?
            (fun k => safe_float (dget wd k))
        else none
      | _ => none)
    if scores ≠ [] then some (scores.sum / scores.length) else none
  | _ => none

/-- The claim's ordered strategy list of signal extractors (spec §4.4 and
the design note of §9): each rule is a pure partial signal, evaluated in a
fixed priority order until one yields a value. -/
def specSignals (mexp : ℚ → Option ℚ) : List (JDict → String → Option ℚ) :=
  [fun seg _ => safe_float (dget seg "speaker_prob"),
   fun seg sp =>
     match dget seg "speaker_probs" with
     | .obj d => safe_float (dget d sp)
     | _ => none,
   fun seg _ => safe_float (dget seg "score"),
   fun seg _ => safe_float (dget seg "confidence"),
   fun seg sp => specWordSignal seg sp,
   fun seg _ => (safe_float (dget seg "avg_logprob")).map (fun x =>
     max 0 (min 1 ((mexp x).getD 0))),
   fun seg _ => (safe_float (dget seg "no_speech_prob")).map (fun x =>
     max 0 (min 1 (1 - x))),
   fun seg _ =>
     match safe_float (dget seg "start"), safe_float (dget seg "end") with
     | some s, some e => if s < e then some (e - s) else none
     | _, _ => none]

/-- The claimed score: the first applicable signal, `0.0` when none applies. -/
def scoreSpec (mexp : ℚ → Option ℚ) (seg : JDict) (sp : String) : ℚ :=
  (((specSignals mexp).findSome? (fun f => f seg sp))).getD 0

theorem wordScores_spec (ws : List JVal) (sp : String) :
    wordScores ws sp = ws.filterMap (fun w =>
      match w with
      | .obj wd =>
        if dget wd "speaker" = JVal.null ∨ dget wd "speaker" = JVal.str sp then
          ["speaker_prob", "prob", "probability", "score", "confidence"].findSome?
            (fun k => safe_float (dget wd k))
        else none
      | _ => none) := by
  unfold wordScores
  congr 1
  funext w
  cases w with
  | obj wd =>
    simp only [firstWordScore]
    by_cases hnull : dget wd "speaker" = JVal.null
    · simp [hnull]
    · by_cases hstr : dget wd "speaker" = JVal.str sp
      · simp [hnull, hstr]
      · simp [hnull, hstr]
  | null => rfl
  | bool b => rfl
  | num q => rfl
  | str s => rfl
  | arr xs => rfl

theorem wordsSignal_spec (segment : JDict) (speaker : String) :
    wordsSignal segment speaker = specWordSignal segment speaker := by
  unfold wordsSignal specWordSignal
  cases hw : dget segment "words" with
  | arr ws =>
    dsimp only
    rw [← wordScores_spec]
    by_cases hws : ws = []
    · subst hws
      simp [wordScores]
    · rw [if_pos hws]
      by_cases hsc : wordScores ws speaker = []
      · simp [hsc]
      · rw [if_pos hsc, if_pos hsc]
        rw [qDiv_eq, qSum_eq, mkRat_natCast]
  | null => rfl
  | bool b => rfl
  | num q => rfl
  | str s => rfl
  | obj d => rfl

theorem speakerProbsSignal_spec (segment : JDict) (speaker : String) :
    speakerProbsSignal segment speaker =
      (match dget segment "speaker_probs" with
       | JVal.obj d => safe_float (dget d speaker)
       | _ => none) := by
  unfold speakerProbsSignal
  cases hsp : dget segment "speaker_probs" <;> rfl

/-- C1: the Evidence Scorer evaluates exactly the claimed strict priority
chain — segment `speaker_prob`, `speaker_probs[speaker]`, `score`,
`confidence`, the word-level mean over qualifying words, clamped
`exp(avg_logprob)` (0 on overflow), clamped `1 - no_speech_prob`, the
positive duration `end - start`, else `0.0` — treating every missing or
non-coercible value as absent, and never raises (it is a total function of
its embedded inputs). -/
theorem C1_extract_speaker_score_priority :
    ∀ (mexp : ℚ → Option ℚ) (segment : JDict) (speaker : String),
      extract_speaker_score mexp segment speaker = scoreSpec mexp segment speaker := by
  intro mexp segment speaker
  unfold extract_speaker_score scoreSpec specSignals
  simp only [List.findSome?_cons, List.findSome?_nil]
  rw [← speakerProbsSignal_spec segment speaker]
  cases h1 : safe_float (dget segment "speaker_prob") with
  | some p => simp [h1]
  | none =>
  simp only [h1]
  cases h2 : speakerProbsSignal segment speaker with
  | some p => simp [h2]
  | none =>
  simp only [h2]
  cases h3 : safe_float (dget segment "score") with
  | some p => simp [h3]
  | none =>
  simp only [h3]
  cases h4 : safe_float (dget segment "confidence") with
  | some p => simp [h4]
  | none =>
  simp only [h4]
  rw [wordsSignal_spec segment speaker]
  cases h5 : specWordSignal segment speaker with
  | some p => simp [h5]
  | none =>
  simp only [h5]
  cases h6 : safe_float (dget segment "avg_logprob") with
  | some x => simp [h6, clamp01_eq]
  | none =>
  simp only [h6, Option.map_none]
  cases h7 : safe_float (dget segment "no_speech_prob") with
  | some x => simp [h7, clamp01_eq, qSub_eq]
  | none =>
  simp only [h7, Option.map_none]
  unfold durationSignal
  cases h8 : safe_float (dget segment "start") with
  | none => simp [h8]
  | some s =>
  try simp only [h8]
  cases h9 : safe_float (dget segment "end") with
  | none => simp [h9]
  | some e =>
  try simp only [h9]
  rw [qSub_eq]
  by_cases hlt : s < e
  · rw [if_pos (sub_pos.mpr hlt), if_pos hlt]
    rfl
  · rw [if_neg (fun hc => hlt (sub_pos.mp hc)), if_neg hlt]
    rfl


theorem mapM_ok_forall₂ {α β : Type} {f : α → Except String β} :
    ∀ {l : List α} {out : List β}, l.mapM f = .ok out →
      List.Forall₂ (fun x y => f x = .ok y) l out := by
  intro l
  induction l with
  | nil =>
    intro out h
    simp only [List.mapM_nil] at h
    cases h
    exact .nil
  | cons x xs ih =>
    intro out h
    rw [List.mapM_cons] at h
    cases hf : f x with
    | error e => rw [hf] at h; simp [Bind.bind, Except.bind] at h
    | ok y =>
      rw [hf] at h
      cases hm : xs.mapM f with
      | error e =>
        rw [hm] at h
        simp [Bind.bind, Except.bind] at h
      | ok ys =>
        rw [hm] at h
        simp only [Bind.bind, Except.bind, Pure.pure, Except.pure] at h
        cases h
        exact .cons hf (ih hm)

theorem dget_dset_self (d : JDict) (k : String) (v : JVal) : dget (dset d k v) k = v := by
  induction d with
  | nil => simp [dset, dget, List.find?]
  | cons a rest ih =>
    rcases a with ⟨k2, v2⟩
    simp only [dset]
    by_cases hk : k2 = k
    · subst hk
      simp [dget, List.find?]
    · rw [if_neg (by simpa using hk)]
      simp only [dget, List.find?] at ih ⊢
      rw [show (k2 == k) = false by simpa using hk]
      exact ih

theorem find?_dset_ne (d : JDict) (k k2 : String) (v : JVal) (h : (k2 == k) = false) :
    (dset d k2 v).find? (fun p => p.1 == k) = d.find? (fun p => p.1 == k) := by
  induction d with
  | nil => simp [dset, List.find?, h]
  | cons a rest ih =>
    rcases a with ⟨ka, va⟩
    simp only [dset]
    by_cases hka : ka = k2
    · subst hka
      rw [if_pos (by simp)]
      simp only [List.find?, h]
    · rw [if_neg (by simpa using hka)]
      simp only [List.find?]
      cases hke : (ka == k)
      · exact ih
      · rfl

theorem dget_dset_ne (d : JDict) (k k2 : String) (v : JVal) (h : k ≠ k2) :
    dget (dset d k2 v) k = dget d k := by
  unfold dget
  rw [find?_dset_ne d k k2 v (by rw [beq_eq_false_iff_ne]; exact fun he => h he.symm)]

theorem dget_ne_null_isSome {d : JDict} {k : String} (h : dget d k ≠ JVal.null) :
    (d.find? (fun p => p.1 == k)).isSome := by
  unfold dget at h
  cases hf : d.find? (fun p => p.1 == k)
  · rw [hf] at h; exact absurd rfl h
  · rfl

theorem dset_forall₂ (d : JDict) (k : String) (v : JVal) :
    (d.find? (fun p => p.1 == k)).isSome →
    List.Forall₂ (fun kv kv2 => kv2.1 = kv.1 ∧ (kv.1 ≠ k → kv2.2 = kv.2)) d (dset d k v) := by
  induction d with
  | nil => intro h; simp [List.find?] at h
  | cons a rest ih =>
    rcases a with ⟨ka, va⟩
    intro h
    simp only [dset]
    by_cases hka : ka = k
    · subst hka
      rw [if_pos (by simp)]
      exact .cons ⟨rfl, fun hne => absurd rfl hne⟩
        (List.forall₂_same.mpr (fun x _ => ⟨rfl, fun _ => rfl⟩))
    · rw [if_neg (by simpa using hka)]
      refine .cons ⟨rfl, fun _ => rfl⟩ (ih ?_)
      simp only [List.find?] at h
      rw [show (ka == k) = false by simpa using hka] at h
      exact h

theorem replaceSegSpeaker_char {m : List (String × String)} {seg seg2 : JVal}
    (h : replaceSegSpeaker m seg = .ok seg2) :
    ((∃ d s v, seg = JVal.obj d ∧ dget d "speaker" = JVal.str s ∧
        lookupMap m s = some v ∧ seg2 = JVal.obj (dset d "speaker" (JVal.str v))) ∨
      seg2 = seg) ∧
    (∀ d s, seg = JVal.obj d → dget d "speaker" = JVal.str s → lookupMap m s = none →
      seg2 = seg) ∧
    ((∀ d, seg ≠ JVal.obj d) → seg2 = seg) := by
  cases seg with
  | obj d =>
    simp only [replaceSegSpeaker] at h
    cases hsp : dget d "speaker" with
    | str s =>
      rw [hsp] at h
      simp only [hashableInMapping, Bind.bind, Except.bind] at h
      by_cases hb : m.any (fun p => p.1 == s)
      · rw [if_pos (by simpa using hb)] at h
        cases hf : m.find? (fun p => p.1 == s) with
        | none =>
          rcases List.any_eq_true.mp hb with ⟨p, hp, hps⟩
          have hnone := List.find?_eq_none.mp hf p hp
          rw [hps] at hnone
          exact absurd rfl hnone
        | some pr =>
          simp only [Pure.pure, Except.pure] at h
          cases h
          refine ⟨.inl ⟨d, s, pr.2, rfl, hsp, ?_, ?_⟩, ?_, fun hno => absurd rfl (hno d)⟩
          · simp [lookupMap, hf]
          · simp [lookupMap, hf]
          · intro d2 s2 he hsp2 hlk
            cases he
            rw [hsp] at hsp2
            cases hsp2
            rw [show lookupMap m s = some pr.2 by simp [lookupMap, hf]] at hlk
            cases hlk
      · rw [if_neg (by simpa using hb)] at h
        simp only [Pure.pure, Except.pure] at h
        cases h
        exact ⟨.inr rfl, fun _ _ _ _ _ => rfl, fun _ => rfl⟩
    | null =>
      rw [hsp] at h
      simp only [hashableInMapping, Bind.bind, Except.bind, if_neg, Pure.pure,
        Except.pure] at h
      cases h
      exact ⟨.inr rfl, fun _ _ _ _ _ => rfl, fun _ => rfl⟩
    | bool b =>
      rw [hsp] at h
      simp only [hashableInMapping, Bind.bind, Except.bind, if_neg, Pure.pure,
        Except.pure] at h
      cases h
      exact ⟨.inr rfl, fun _ _ _ _ _ => rfl, fun _ => rfl⟩
    | num q =>
      rw [hsp] at h
      simp only [hashableInMapping, Bind.bind, Except.bind, if_neg, Pure.pure,
        Except.pure] at h
      cases h
      exact ⟨.inr rfl, fun _ _ _ _ _ => rfl, fun _ => rfl⟩
    | arr xs =>
      rw [hsp] at h
      simp [hashableInMapping, Bind.bind, Except.bind] at h
    | obj d3 =>
      rw [hsp] at h
      simp [hashableInMapping, Bind.bind, Except.bind] at h
  | null =>
    cases h
    refine ⟨.inr rfl, ?_, fun _ => rfl⟩
    intro d2 s2 he hsp2 hlk
    cases he
  | bool b =>
    cases h
    refine ⟨.inr rfl, ?_, fun _ => rfl⟩
    intro d2 s2 he hsp2 hlk
    cases he
  | num q =>
    cases h
    refine ⟨.inr rfl, ?_, fun _ => rfl⟩
    intro d2 s2 he hsp2 hlk
    cases he
  | str s =>
    cases h
    refine ⟨.inr rfl, ?_, fun _ => rfl⟩
    intro d2 s2 he hsp2 hlk
    cases he
  | arr xs =>
    cases h
    refine ⟨.inr rfl, ?_, fun _ => rfl⟩
    intro d2 s2 he hsp2 hlk
    cases he

/-- C4: the Structured Relabeler is a frame transformation: when it returns,
only `segments[*].speaker` values whose speaker is a mapping key change (to
the mapped name, via an in-place `speaker` overwrite that preserves every
other field and the key order); sibling top-level keys keep their order and
content; segments with an unmapped, missing or non-dict speaker — and
non-dict segment entries — are returned unchanged; a document without a list
`segments` key is returned as-is. -/
theorem C4_replace_json_frame :
    ∀ (data : JDict) (m : List (String × String)) (out : JDict),
      replace_speakers_in_json data m = .ok out →
      List.Forall₂ (fun kv kv2 => kv2.1 = kv.1 ∧ (kv.1 ≠ "segments" → kv2.2 = kv.2)) data out ∧
      ((∀ segs, dget data "segments" ≠ JVal.arr segs) → out = data) ∧
      (∀ segs, dget data "segments" = JVal.arr segs →
        ∃ segs2, dget out "segments" = JVal.arr segs2 ∧
          List.Forall₂ (fun seg seg2 =>
            ((∃ d s v, seg = JVal.obj d ∧ dget d "speaker" = JVal.str s ∧
                lookupMap m s = some v ∧ seg2 = JVal.obj (dset d "speaker" (JVal.str v))) ∨
              seg2 = seg) ∧
            (∀ d s, seg = JVal.obj d → dget d "speaker" = JVal.str s →
              lookupMap m s = none → seg2 = seg) ∧
            ((∀ d, seg ≠ JVal.obj d) → seg2 = seg)) segs segs2) ∧
      (∀ (d : JDict) (x : JVal) (k : String), k ≠ "speaker" →
        dget (dset d "speaker" x) k = dget d k) := by
  intro data m out h
  unfold replace_speakers_in_json at h
  split at h
  · rename_i segs hseg
    cases hm : segs.mapM (replaceSegSpeaker m) with
    | error e => rw [hm] at h; simp [Bind.bind, Except.bind] at h
    | ok segs2 =>
      rw [hm] at h
      simp only [Bind.bind, Except.bind, Pure.pure, Except.pure] at h
      cases h
      have hsome : (data.find? (fun p => p.1 == "segments")).isSome :=
        dget_ne_null_isSome (by rw [hseg]; exact fun hc => JVal.noConfusion hc)
      refine ⟨dset_forall₂ data "segments" (JVal.arr segs2) hsome,
        fun hno => absurd hseg (hno segs), ?_, fun d x k hk => dget_dset_ne d k "speaker" x hk⟩
      intro segs3 hseg3
      rw [hseg] at hseg3
      cases hseg3
      refine ⟨segs2, dget_dset_self data "segments" (JVal.arr segs2), ?_⟩
      exact List.Forall₂.imp (fun a b hxy => replaceSegSpeaker_char hxy) (mapM_ok_forall₂ hm)
  · rename_i hno
    simp only [Pure.pure, Except.pure] at h
    cases h
    refine ⟨List.forall₂_same.mpr (fun x _ => ⟨rfl, fun _ => rfl⟩), fun _ => rfl, ?_,
      fun d x k hk => dget_dset_ne d k "speaker" x hk⟩
    intro segs3 hseg3
    exact absurd (hno segs3 hseg3) (fun hc => hc)

/-- A concrete document for exercising the Structured Relabeler. -/
def c4Data : JDict :=
  [("segments", .arr [.obj [("speaker", .str "SPEAKER_01"), ("text", .str "w")],
                      .obj [("speaker", .str "SPEAKER_99")]]),
   ("other", .str "keep")]

/-- The mapping used with `c4Data`. -/
def c4Map : List (String × String) := [("SPEAKER_01", "HOST")]

/-- The relabeled output of `c4Data` under `c4Map`. -/
def c4Out : JDict :=
  [("segments", .arr [.obj [("speaker", .str "HOST"), ("text", .str "w")],
                      .obj [("speaker", .str "SPEAKER_99")]]),
   ("other", .str "keep")]

/-- C4 witness: the frame property discharged at a concrete document whose
sibling key `"other"` and unmapped second segment survive unchanged. -/
theorem C4_witness :
    List.Forall₂ (fun kv kv2 => kv2.1 = kv.1 ∧ (kv.1 ≠ "segments" → kv2.2 = kv.2))
      c4Data c4Out ∧
    dget c4Out "other" = JVal.str "keep" := by
  have h := C4_replace_json_frame c4Data c4Map c4Out (by decide)
  exact ⟨h.1, by decide⟩

/-- The (total) start key a segment sorts by: the coerced `start` default 0,
and 0 for values the sort would reject. -/
def startValD (v : JVal) : ℚ :=
  match v with
  | .obj d => (safe_float (dgetD d "start" (.num 0))).getD 0
  | _ => 0

/-- A segment entry the rendering loop accepts: a dict whose `text` is a
string or falsy. -/
def renderSafe (v : JVal) : Bool :=
  match v with
  | .obj d =>
    match dget d "text" with
    | .str _ => true
    | t => !truthy t
  | _ => false

/-- A segment entry whose sort key `float(s.get("start", 0.0))` is
computable. -/
def startFloatable (v : JVal) : Bool :=
  match v with
  | .obj d => (safe_float (dgetD d "start" (.num 0))).isSome
  | _ => false

theorem dgetD_dset_ne (d : JDict) (k k2 : String) (v dflt : JVal) (h : k ≠ k2) :
    dgetD (dset d k2 v) k dflt = dgetD d k dflt := by
  unfold dgetD
  rw [find?_dset_ne d k k2 v (by rw [beq_eq_false_iff_ne]; exact fun he => h he.symm)]

theorem startValD_setSpeaker (v sp : JVal) : startValD (setSpeaker v sp) = startValD v := by
  cases v with
  | obj d =>
    simp only [setSpeaker, startValD]
    rw [dgetD_dset_ne d "start" "speaker" sp (.num 0) (by decide)]
  | null => rfl
  | bool b => rfl
  | num q => rfl
  | str s => rfl
  | arr xs => rfl

theorem renderSafe_setSpeaker {v : JVal} (sp : JVal) (h : renderSafe v = true) :
    renderSafe (setSpeaker v sp) = true := by
  cases v with
  | obj d =>
    simp only [setSpeaker, renderSafe] at h ⊢
    rw [dget_dset_ne d "text" "speaker" sp (by decide)]
    exact h
  | null => exact h
  | bool b => exact h
  | num q => exact h
  | str s => exact h
  | arr xs => exact h

theorem smoothGo_map_startValD (t : ℚ) :
    ∀ (l : List JVal) (prev : JVal),
      (smoothGo t prev l).map startValD = l.map startValD := by
  intro l
  induction l with
  | nil => intro prev; rfl
  | cons cur rest ih =>
    intro prev
    cases rest with
    | nil => rfl
    | cons next rest2 =>
      simp only [smoothGo, List.map_cons]
      rw [ih]
      simp only [List.map_cons]
      congr 1
      split
      · rw [startValD_setSpeaker]
      · rfl

theorem smoothGo_mem (t : ℚ) :
    ∀ (l : List JVal) (prev x : JVal), x ∈ smoothGo t prev l →
      ∃ y ∈ l, x = y ∨ ∃ sp, x = setSpeaker y sp := by
  intro l
  induction l with
  | nil => intro prev x hx; simp [smoothGo] at hx
  | cons cur rest ih =>
    intro prev x hx
    cases rest with
    | nil =>
      simp only [smoothGo] at hx
      rcases List.mem_singleton.mp hx with rfl
      exact ⟨x, List.mem_cons_self _ _, .inl rfl⟩
    | cons next rest2 =>
      simp only [smoothGo] at hx
      rcases List.mem_cons.mp hx with rfl | hx2
      · split
        · exact ⟨cur, List.mem_cons_self _ _, .inr ⟨spOf prev, rfl⟩⟩
        · exact ⟨cur, List.mem_cons_self _ _, .inl rfl⟩
      · rcases ih _ _ hx2 with ⟨y, hy, hxy⟩
        exact ⟨y, List.mem_cons_of_mem _ hy, hxy⟩

theorem pairsM_ok {segs : List JVal} {pairs : List (JVal × ℚ)}
    (h : segs.mapM (fun s => do
        let k ← sortKey s
        pure (s, k)) = .ok pairs) :
    List.Forall₂ (fun s pr => pr.1 = s ∧ sortKey s = .ok pr.2) segs pairs := by
  refine List.Forall₂.imp ?_ (mapM_ok_forall₂ h)
  intro s pr hpr
  cases hk : sortKey s with
  | error e => rw [hk] at hpr; simp [Bind.bind, Except.bind] at hpr
  | ok k =>
    rw [hk] at hpr
    simp only [Bind.bind, Except.bind, Pure.pure, Except.pure] at hpr
    cases hpr
    exact ⟨rfl, rfl⟩

theorem forall₂_map_fst {segs : List JVal} {pairs : List (JVal × ℚ)}
    (h : List.Forall₂ (fun s pr => pr.1 = s ∧ sortKey s = .ok pr.2) segs pairs) :
    pairs.map Prod.fst = segs := by
  induction h with
  | nil => rfl
  | cons hr _ ih => simp [List.map_cons, ih, hr.1]

theorem forall₂_mem_right {R : JVal → JVal × ℚ → Prop} :
    ∀ {segs : List JVal} {pairs : List (JVal × ℚ)}, List.Forall₂ R segs pairs →
      ∀ pr ∈ pairs, ∃ s ∈ segs, R s pr := by
  intro segs pairs h
  induction h with
  | nil => intro pr hpr; simp at hpr
  | cons hr hrest ih =>
    intro pr hpr
    rcases List.mem_cons.mp hpr with rfl | hpr2
    · exact ⟨_, List.mem_cons_self _ _, hr⟩
    · rcases ih pr hpr2 with ⟨s, hs, hR⟩
      exact ⟨s, List.mem_cons_of_mem _ hs, hR⟩

theorem sortKey_ok_startVal {s : JVal} {k : ℚ} (h : sortKey s = .ok k) :
    startValD s = k := by
  cases s with
  | obj d =>
    simp only [sortKey] at h
    cases hf : safe_float (dgetD d "start" (.num 0)) with
    | none => rw [hf] at h; cases h
    | some q =>
      rw [hf] at h
      cases h
      simp [startValD, hf]
  | null => simp [sortKey] at h
  | bool b => simp [sortKey] at h
  | num q => simp [sortKey] at h
  | str s2 => simp [sortKey] at h
  | arr xs => simp [sortKey] at h

theorem sortSegs_ok {segs ss : List JVal} (h : sortSegs segs = .ok ss) :
    ss.Perm segs ∧ ss.Pairwise (fun a b => startValD a ≤ startValD b) := by
  unfold sortSegs at h
  cases hm : segs.mapM (fun s => do
      let k ← sortKey s
      pure (s, k)) with
  | error e => rw [hm] at h; simp [Bind.bind, Except.bind] at h
  | ok pairs =>
    rw [hm] at h
    simp only [Bind.bind, Except.bind, Pure.pure, Except.pure] at h
    cases h
    have hf2 := pairsM_ok hm
    have hperm : (ssort (fun a b => decide (a.2 ≤ b.2)) pairs).Perm pairs :=
      ssort_perm _ pairs
    constructor
    · have := hperm.map Prod.fst
      rw [forall₂_map_fst hf2] at this
      exact this
    · have hsorted : (ssort (fun a b => decide (a.2 ≤ b.2)) pairs).Pairwise
          (fun a b => (decide (a.2 ≤ b.2)) = true) := by
        refine ssort_pairwise _ ?_ ?_ pairs
        · intro a b c hab hbc
          simp only [decide_eq_true_eq] at hab hbc ⊢
          exact le_trans hab hbc
        · intro a b
          simp only [Bool.or_eq_true, decide_eq_true_eq]
          exact le_total a.2 b.2
      have hkeys : ∀ pr ∈ ssort (fun a b => decide (a.2 ≤ b.2)) pairs,
          startValD pr.1 = pr.2 := by
        intro pr hpr
        have hpr2 : pr ∈ pairs := hperm.subset hpr
        rcases forall₂_mem_right hf2 pr hpr2 with ⟨s, _, hR⟩
        rw [hR.1]
        exact sortKey_ok_startVal hR.2
      rw [List.pairwise_map]
      refine List.Pairwise.imp_of_mem ?_ hsorted
      intro a b ha hb hab
      simp only [decide_eq_true_eq] at hab
      rw [hkeys a ha, hkeys b hb]
      exact hab

theorem smooth_ok_inv {segs out : List JVal} {t : ℚ}
    (h : smooth_speaker_labels segs t = .ok out) (hlen : ¬ segs.length < 3) :
    ∃ ss, sortSegs segs = .ok ss ∧
      out = (match ss with
             | [] => ([] : List JVal)
             | a :: rest => a :: smoothGo t a rest) := by
  unfold smooth_speaker_labels at h
  rw [if_neg hlen] at h
  cases hs : sortSegs segs with
  | error e => rw [hs] at h; simp [Bind.bind, Except.bind] at h
  | ok ss =>
    rw [hs] at h
    simp only [Bind.bind, Except.bind] at h
    cases ss with
    | nil => cases h; exact ⟨[], rfl, rfl⟩
    | cons a rest => cases h; exact ⟨a :: rest, rfl, rfl⟩

/-- C8 counterexample: a two-segment document listed out of chronological
order is rendered in its input order — the smoothing pass sorts only
sequences of length at least 3, so the first rendered line carries the later
start. -/
theorem C8_counterexample :
    build_diarized_transcript_lines_from_data
        [("segments", JVal.arr [JVal.obj [("start", JVal.num 5)],
                                JVal.obj [("start", JVal.num 1)]])] =
      .ok ["[00:00:05.000 --> 00:00:00.000] UNKNOWN: ",
           "[00:00:01.000 --> 00:00:00.000] UNKNOWN: "] ∧
    ¬ startValD (JVal.obj [("start", JVal.num 5)]) ≤
        startValD (JVal.obj [("start", JVal.num 1)]) := by
  constructor
  · decide
  · decide

/-- C8 (amended): with at least 3 extracted segments, the renderer walks the
segments in non-decreasing start order (the smoothing pass sorts first and
start values survive relabeling); with fewer than 3 segments the input order
is kept untouched. -/
theorem C8_render_order :
    ∀ (data : JDict) (segs2 : List JVal), processedSegments data = .ok segs2 →
      (3 ≤ (extractSegments data).length →
        segs2.Pairwise (fun a b => startValD a ≤ startValD b)) ∧
      ((extractSegments data).length < 3 → segs2 = extractSegments data) := by
  intro data segs2 h
  unfold processedSegments at h
  constructor
  · intro h3
    have hnl : ¬ (extractSegments data).length < 3 := by omega
    rcases smooth_ok_inv h hnl with ⟨ss, hss, hout⟩
    rcases sortSegs_ok hss with ⟨hperm, hsorted⟩
    cases ss with
    | nil => subst hout; exact .nil
    | cons a rest =>
      subst hout
      have hmap : (a :: smoothGo (mkRat 7 10) a rest).map startValD =
          (a :: rest).map startValD := by
        simp only [List.map_cons]
        rw [smoothGo_map_startValD]
      refine (List.pairwise_map (f := startValD)).mp ?_
      rw [hmap]
      exact (List.pairwise_map (f := startValD)).mpr hsorted
  · intro hlt
    unfold smooth_speaker_labels at h
    rw [if_pos hlt] at h
    cases h
    rfl

/-- C8 witness: a concrete three-segment document given out of order comes
back chronologically sorted. -/
theorem C8_witness :
    List.Pairwise (fun a b => startValD a ≤ startValD b)
      [JVal.obj [("start", JVal.num 1)], JVal.obj [("start", JVal.num 3)],
       JVal.obj [("start", JVal.num 5)]] :=
  (C8_render_order
    [("segments", JVal.arr [JVal.obj [("start", JVal.num 5)],
                            JVal.obj [("start", JVal.num 1)],
                            JVal.obj [("start", JVal.num 3)]])]
    [JVal.obj [("start", JVal.num 1)], JVal.obj [("start", JVal.num 3)],
     JVal.obj [("start", JVal.num 5)]]
    (by decide)).1 (by decide)

theorem renderSeg_isOk {v : JVal} (h : renderSafe v = true) : ∃ s, renderSeg v = .ok s := by
  cases v with
  | obj d =>
    simp only [renderSafe] at h
    simp only [renderSeg]
    split at h
    · rename_i s heq
      rw [heq]
      by_cases ht : truthy (JVal.str s) = true
      · rw [if_pos ht]
        exact ⟨_, rfl⟩
      · rw [if_neg ht]
        exact ⟨_, rfl⟩
    · have ht : truthy (dget d "text") = false := by
        simpa using h
      rw [if_neg (by simp [ht])]
      exact ⟨_, rfl⟩
  | null => simp [renderSafe] at h
  | bool b => simp [renderSafe] at h
  | num q => simp [renderSafe] at h
  | str s => simp [renderSafe] at h
  | arr xs => simp [renderSafe] at h

theorem mapM_isOk {α β : Type} {f : α → Except String β} :
    ∀ {l : List α}, (∀ x ∈ l, ∃ y, f x = .ok y) → ∃ out, l.mapM f = .ok out := by
  intro l
  induction l with
  | nil => intro _; exact ⟨[], rfl⟩
  | cons x xs ih =>
    intro h
    rcases h x (List.mem_cons_self _ _) with ⟨y, hy⟩
    rcases ih (fun z hz => h z (List.mem_cons_of_mem _ hz)) with ⟨ys, hys⟩
    refine ⟨y :: ys, ?_⟩
    rw [List.mapM_cons, hy, hys]
    rfl

theorem sortKey_isOk {v : JVal} (h : startFloatable v = true) : ∃ k, sortKey v = .ok k := by
  cases v with
  | obj d =>
    simp only [startFloatable] at h
    cases hf : safe_float (dgetD d "start" (.num 0)) with
    | none => rw [hf] at h; simp at h
    | some q => exact ⟨q, by simp [sortKey, hf]⟩
  | null => simp [startFloatable] at h
  | bool b => simp [startFloatable] at h
  | num q => simp [startFloatable] at h
  | str s => simp [startFloatable] at h
  | arr xs => simp [startFloatable] at h

/-- C3 counterexample: a document whose `segments` list holds a non-dict
entry makes the renderer raise (`seg.get` on an `int` — `AttributeError`)
instead of degrading. -/
theorem C3_counterexample :
    build_diarized_transcript_lines_from_data [("segments", JVal.arr [JVal.num 1])] =
      .error "AttributeError" := by
  decide

/-- C3 (amended): the renderer never raises on a document without a list
`segments` (it returns no lines), and never raises when every extracted
segment entry is a dict whose `text` is a string or falsy and whose start
key is float-coercible; truthy non-string `text` values, non-coercible
`start` values (with at least 3 segments) and non-dict entries raise instead
of degrading. -/
theorem C3_build_lines_total_on :
    ∀ data : JDict,
      ((∀ xs, dget data "segments" ≠ JVal.arr xs) →
        build_diarized_transcript_lines_from_data data = .ok []) ∧
      ((∀ s ∈ extractSegments data, renderSafe s = true ∧ startFloatable s = true) →
        ∃ lines, build_diarized_transcript_lines_from_data data = .ok lines) := by
  intro data
  constructor
  · intro hno
    have hext : extractSegments data = [] := by
      unfold extractSegments
      cases hseg : dget data "segments" with
      | arr xs => exact absurd hseg (hno xs)
      | null => rfl
      | bool b => cases b <;> rfl
      | num q =>
        by_cases hq : truthy (JVal.num q) = true
        · simp [hq]
        · simp [hq]
      | str s =>
        by_cases hq : truthy (JVal.str s) = true
        · simp [hq]
        · simp [hq]
      | obj d =>
        by_cases hq : truthy (JVal.obj d) = true
        · simp [hq]
        · simp [hq]
    unfold build_diarized_transcript_lines_from_data processedSegments
    rw [hext]
    rfl
  · intro hok
    unfold build_diarized_transcript_lines_from_data processedSegments
    by_cases hlen : (extractSegments data).length < 3
    · unfold smooth_speaker_labels
      rw [if_pos hlen]
      simp only [Bind.bind, Except.bind]
      rcases mapM_isOk (fun x hx => renderSeg_isOk (hok x hx).1) with ⟨lines, hlines⟩
      exact ⟨lines, hlines⟩
    · -- length ≥ 3: the sort succeeds and the pass preserves render-safety
      have hsort : ∃ ss, sortSegs (extractSegments data) = .ok ss := by
        have hkeys : ∀ x ∈ extractSegments data,
            ∃ y : JVal × ℚ, (do
              let k ← sortKey x
              pure (x, k) : Except String (JVal × ℚ)) = .ok y := by
          intro x hx
          rcases sortKey_isOk (hok x hx).2 with ⟨k, hk⟩
          refine ⟨(x, k), ?_⟩
          simp only [Bind.bind, Except.bind, hk]
          rfl
        rcases mapM_isOk (f := fun s => do
            let k ← sortKey s
            pure (s, k)) hkeys with ⟨pairs, hpairs⟩
        refine ⟨(ssort (fun a b => decide (a.2 ≤ b.2)) pairs).map (fun p => p.1), ?_⟩
        unfold sortSegs
        rw [hpairs]
        rfl
      rcases hsort with ⟨ss, hss⟩
      have hssmem : ∀ x ∈ ss, renderSafe x = true := by
        intro x hx
        have hperm := (sortSegs_ok hss).1
        exact (hok x (hperm.subset hx)).1
      unfold smooth_speaker_labels
      rw [if_neg hlen, hss]
      simp only [Bind.bind, Except.bind]
      cases ss with
      | nil => exact ⟨[], rfl⟩
      | cons a rest =>
        have hsafe : ∀ x ∈ a :: smoothGo (mkRat 7 10) a rest, renderSafe x = true := by
          intro x hx
          rcases List.mem_cons.mp hx with rfl | hx2
          · exact hssmem x (List.mem_cons_self _ _)
          · rcases smoothGo_mem _ _ _ _ hx2 with ⟨y, hy, hxy | ⟨sp, hxy⟩⟩
            · rw [hxy]
              exact hssmem y (List.mem_cons_of_mem _ hy)
            · rw [hxy]
              exact renderSafe_setSpeaker sp (hssmem y (List.mem_cons_of_mem _ hy))
        rcases mapM_isOk (fun x hx => renderSeg_isOk (hsafe x hx)) with ⟨lines, hlines⟩
        exact ⟨lines, hlines⟩

/-- Total indexing into a segment list (`null` out of range), used to state
per-index properties of the smoothing pass. -/
def segAt (l : List JVal) (i : Nat) : JVal := l.getD i JVal.null

theorem segAt_cons_zero (a : JVal) (l : List JVal) : segAt (a :: l) 0 = a := rfl

theorem segAt_cons_succ (a : JVal) (l : List JVal) (i : Nat) :
    segAt (a :: l) (i + 1) = segAt l i := rfl

theorem smoothGo_length (t : ℚ) :
    ∀ (rest : List JVal) (prev : JVal), (smoothGo t prev rest).length = rest.length := by
  intro rest
  induction rest with
  | nil => intro prev; rfl
  | cons cur rest ih =>
    intro prev
    cases rest with
    | nil => rfl
    | cons next rest2 =>
      simp only [smoothGo, List.length_cons]
      rw [ih]
      simp only [List.length_cons]

theorem smoothGo_idx_hi (t : ℚ) :
    ∀ (rest : List JVal) (prev : JVal) (i : Nat), rest.length ≤ i + 1 →
      segAt (smoothGo t prev rest) i = segAt rest i := by
  intro rest
  induction rest with
  | nil => intro prev i _; rfl
  | cons cur rest ih =>
    intro prev i hi
    cases rest with
    | nil => rfl
    | cons next rest2 =>
      cases i with
      | zero => simp at hi
      | succ j =>
        simp only [smoothGo]
        rw [segAt_cons_succ, segAt_cons_succ]
        apply ih
        simp only [List.length_cons] at hi ⊢
        omega

theorem smoothGo_cons₂ (t : ℚ) (prev cur next : JVal) (rest2 : List JVal) :
    smoothGo t prev (cur :: next :: rest2) =
      (if shouldRelabel t prev cur next then setSpeaker cur (spOf prev) else cur) ::
        smoothGo t (if shouldRelabel t prev cur next then setSpeaker cur (spOf prev) else cur)
          (next :: rest2) := rfl

theorem segAt_cons_eq_if (a : JVal) (l : List JVal) (j : Nat) :
    segAt (a :: l) j = if j = 0 then a else segAt l (j - 1) := by
  cases j with
  | zero => rfl
  | succ k => simp [segAt_cons_succ]

theorem smoothGo_idx (t : ℚ) :
    ∀ (rest : List JVal) (prev : JVal) (i : Nat), i + 1 < rest.length →
      segAt (smoothGo t prev rest) i =
        (if shouldRelabel t
              (if i = 0 then prev else segAt (smoothGo t prev rest) (i - 1))
              (segAt rest i) (segAt rest (i + 1)) = true
         then setSpeaker (segAt rest i)
              (spOf (if i = 0 then prev else segAt (smoothGo t prev rest) (i - 1)))
         else segAt rest i) := by
  intro rest
  induction rest with
  | nil => intro prev i hi; simp at hi
  | cons cur rest ih =>
    intro prev i hi
    cases rest with
    | nil => simp at hi
    | cons next rest2 =>
      cases i with
      | zero =>
        rw [smoothGo_cons₂]
        rfl
      | succ j =>
        have hj : j + 1 < (next :: rest2).length := by
          simp only [List.length_cons] at hi ⊢
          omega
        rw [smoothGo_cons₂, segAt_cons_succ, ih _ j hj, ← segAt_cons_eq_if]
        simp only [segAt_cons_succ, Nat.add_sub_cancel]
        rw [if_neg (by omega : ¬ (j + 1 = 0))]

/-- The input of the C2 counterexample: four chronological segments with
speaker tags B, A, B, A; the two middle ones are short (0.5s). -/
def c2Segs : List JVal :=
  [JVal.obj [("start", JVal.num 0), ("end", JVal.num 1), ("speaker", JVal.str "B")],
   JVal.obj [("start", JVal.num 1), ("end", JVal.num (mkRat 3 2)), ("speaker", JVal.str "A")],
   JVal.obj [("start", JVal.num (mkRat 3 2)), ("end", JVal.num 2), ("speaker", JVal.str "B")],
   JVal.obj [("start", JVal.num 2), ("end", JVal.num 3), ("speaker", JVal.str "A")]]

/-- What `smooth_speaker_labels` actually returns on `c2Segs`: index 1 was
relabeled to B, after which index 2 no longer sees equal neighbours and keeps
B. -/
def c2Out : List JVal :=
  [JVal.obj [("start", JVal.num 0), ("end", JVal.num 1), ("speaker", JVal.str "B")],
   JVal.obj [("start", JVal.num 1), ("end", JVal.num (mkRat 3 2)), ("speaker", JVal.str "B")],
   JVal.obj [("start", JVal.num (mkRat 3 2)), ("end", JVal.num 2), ("speaker", JVal.str "B")],
   JVal.obj [("start", JVal.num 2), ("end", JVal.num 3), ("speaker", JVal.str "A")]]

/-- C2 counterexample: at interior index 2 of `c2Segs` every condition of the
claim holds of the input (duration 0.5 ≤ 0.7, both input neighbours carry the
same truthy tag "A", the segment's own tag "B" is non-null and differs), yet
the output keeps "B": the loop had already relabeled index 1 to "B", and the
conditions are evaluated against the rewritten left neighbour. -/
theorem C2_counterexample :
    smooth_speaker_labels c2Segs (mkRat 7 10) = .ok c2Out ∧
    spOf (segAt c2Segs 1) = spOf (segAt c2Segs 3) ∧
    truthy (spOf (segAt c2Segs 1)) = true ∧
    segDur (segAt c2Segs 2) = some (mkRat 1 2) ∧
    mkRat 1 2 ≤ mkRat 7 10 ∧
    spOf (segAt c2Segs 2) ≠ JVal.null ∧
    spOf (segAt c2Segs 2) ≠ spOf (segAt c2Segs 1) ∧
    spOf (segAt c2Out 2) ≠ spOf (segAt c2Segs 1) := by
  decide

/-- C2 (amended): on fewer than 3 segments the list comes back untouched;
otherwise, writing `ss` for the sorted input, the output has the same length,
keeps the first segment and every segment from the second-to-last on, and
every interior segment `i` is relabeled to the left neighbour's tag exactly
when the loop condition holds of the *already-smoothed* left neighbour
`out[i-1]` and the original right neighbour `ss[i+1]` — not of the input
neighbours, so a run of short segments can defeat the per-index reading of
the claim. -/
theorem C2_smooth_pointwise :
    ∀ (segs : List JVal) (t : ℚ) (out : List JVal),
      smooth_speaker_labels segs t = .ok out →
      (segs.length < 3 → out = segs) ∧
      (∀ ss, sortSegs segs = .ok ss → ¬ segs.length < 3 →
        out.length = ss.length ∧
        segAt out 0 = segAt ss 0 ∧
        (∀ i, 1 ≤ i → i + 1 < ss.length →
          segAt out i =
            (if shouldRelabel t (segAt out (i - 1)) (segAt ss i) (segAt ss (i + 1)) = true
             then setSpeaker (segAt ss i) (spOf (segAt out (i - 1)))
             else segAt ss i)) ∧
        (∀ i, ss.length ≤ i + 1 → segAt out i = segAt ss i)) := by
  intro segs t out h
  constructor
  · intro hlen
    unfold smooth_speaker_labels at h
    rw [if_pos hlen] at h
    exact (Except.ok.inj h).symm
  · intro ss hss hlen
    rcases smooth_ok_inv h hlen with ⟨ss2, hss2, hout⟩
    rw [hss] at hss2
    have he : ss2 = ss := (Except.ok.inj hss2).symm
    subst he
    cases ss2 with
    | nil =>
      subst hout
      exact ⟨rfl, rfl, fun i _ hi2 => by simp at hi2, fun i _ => rfl⟩
    | cons a rest =>
      subst hout
      refine ⟨?_, rfl, ?_, ?_⟩
      · simp only [List.length_cons, smoothGo_length]
      · intro i hi1 hi2
        cases i with
        | zero => omega
        | succ j =>
          have hj : j + 1 < rest.length := by
            simp only [List.length_cons] at hi2
            omega
          rw [segAt_cons_succ, smoothGo_idx t rest a j hj]
          simp only [Nat.add_sub_cancel, segAt_cons_succ]
          rw [← segAt_cons_eq_if]
      · intro i hile
        cases i with
        | zero => rfl
        | succ j =>
          rw [segAt_cons_succ, segAt_cons_succ]
          apply smoothGo_idx_hi
          simp only [List.length_cons] at hile
          omega

/-- C2 witness: the pointwise description instantiated at interior index 2 of
the concrete four-segment document. -/
theorem C2_witness :
    segAt c2Out 2 =
      (if shouldRelabel (mkRat 7 10) (segAt c2Out 1) (segAt c2Segs 2) (segAt c2Segs 3) = true
       then setSpeaker (segAt c2Segs 2) (spOf (segAt c2Out 1))
       else segAt c2Segs 2) :=
  ((C2_smooth_pointwise c2Segs (mkRat 7 10) c2Out (by decide)).2 c2Segs (by decide)
    (by decide)).2.2.1 2 (by decide) (by decide)

/-- The total value of the selection key `seg.get("score", 0.0)`: the number
`scoreKey` returns whenever it succeeds. -/
def scoreValD (v : JVal) : ℚ :=
  match v with
  | .obj d =>
    match dgetD d "score" (.num 0) with
    | .num q => q
    | .bool b => if b then 1 else 0
    | _ => 0
  | _ => 0

/-- The total value of the chronological key `seg.get("start") or 0.0`: the
number `startKey` returns whenever it succeeds. -/
def startOrD (v : JVal) : ℚ :=
  match v with
  | .obj d =>
    match (if truthy (dget d "start") then dget d "start" else .num 0) with
    | .num q => q
    | .bool b => if b then 1 else 0
    | _ => 0
  | _ => 0

theorem scoreKey_ok_val {s : JVal} {k : ℚ} (h : scoreKey s = .ok k) : k = scoreValD s := by
  unfold scoreKey at h
  unfold scoreValD
  split at h
  · split at h <;> first
      | (cases h; rfl)
      | (cases h)
  · cases h

theorem startKey_ok_val {s : JVal} {k : ℚ} (h : startKey s = .ok k) : k = startOrD s := by
  unfold startKey at h
  unfold startOrD
  split at h
  · split at h <;> first
      | (cases h; rfl)
      | (cases h)
  · cases h

theorem keyPairsM_ok {kf : JVal → Except String ℚ} {segs : List JVal}
    {pairs : List (JVal × ℚ)}
    (h : segs.mapM (fun s => do
        let k ← kf s
        pure (s, k)) = .ok pairs) :
    List.Forall₂ (fun s pr => pr.1 = s ∧ kf s = .ok pr.2) segs pairs := by
  refine List.Forall₂.imp ?_ (mapM_ok_forall₂ h)
  intro s pr hpr
  cases hk : kf s with
  | error e => rw [hk] at hpr; simp [Bind.bind, Except.bind] at hpr
  | ok k =>
    rw [hk] at hpr
    simp only [Bind.bind, Except.bind, Pure.pure, Except.pure] at hpr
    cases hpr
    exact ⟨rfl, rfl⟩

theorem keyPairs_map_fst {kf : JVal → Except String ℚ} :
    ∀ {segs : List JVal} {pairs : List (JVal × ℚ)},
      List.Forall₂ (fun s pr => pr.1 = s ∧ kf s = .ok pr.2) segs pairs →
      pairs.map Prod.fst = segs := by
  intro segs pairs h
  induction h with
  | nil => rfl
  | cons hr _ ih => simp [List.map_cons, ih, hr.1]

/-- The three facts that pin down a stable sort by a key function: the output
is a permutation, it is ordered by the key, and each equal-key class keeps its
original order (expressed as a filter identity). -/
theorem stable_sort_props (kf : JVal → Except String ℚ) (kd : JVal → ℚ)
    (le : ℚ → ℚ → Bool)
    (hkd : ∀ s k, kf s = .ok k → k = kd s)
    (htrans : ∀ a b c : ℚ, le a b = true → le b c = true → le a c = true)
    (htot : ∀ a b : ℚ, le a b || le b a)
    {segs : List JVal} {pairs : List (JVal × ℚ)}
    (hm : segs.mapM (fun s => do
        let k ← kf s
        pure (s, k)) = .ok pairs) :
    ((ssort (fun a b => le a.2 b.2) pairs).map Prod.fst).Perm segs ∧
    ((ssort (fun a b => le a.2 b.2) pairs).map Prod.fst).Pairwise
      (fun a b => le (kd a) (kd b) = true) ∧
    ∀ q : ℚ, ((ssort (fun a b => le a.2 b.2) pairs).map Prod.fst).filter
        (fun s => kd s == q)
      = segs.filter (fun s => kd s == q) := by
  have hf2 := keyPairsM_ok hm
  have hmap : pairs.map Prod.fst = segs := keyPairs_map_fst hf2
  have hkey : ∀ pr ∈ pairs, pr.2 = kd pr.1 := by
    intro pr hpr
    rcases forall₂_mem_right hf2 pr hpr with ⟨s, _, h1, h2⟩
    rw [h1]
    exact hkd s pr.2 h2
  have hperm : (ssort (fun a b => le a.2 b.2) pairs).Perm pairs := ssort_perm _ _
  have hkey2 : ∀ pr ∈ ssort (fun a b => le a.2 b.2) pairs, pr.2 = kd pr.1 :=
    fun pr hpr => hkey pr (hperm.subset hpr)
  refine ⟨?_, ?_, ?_⟩
  · have := hperm.map Prod.fst
    rw [hmap] at this
    exact this
  · have hp : (ssort (fun a b => le a.2 b.2) pairs).Pairwise
        (fun a b => le a.2 b.2 = true) := by
      refine ssort_pairwise _ ?_ ?_ pairs
      · intro a b c hab hbc
        exact htrans _ _ _ hab hbc
      · intro a b
        exact htot a.2 b.2
    refine List.pairwise_map.mpr ?_
    refine hp.imp_of_mem (fun ha hb hr => ?_)
    rw [hkey2 _ ha, hkey2 _ hb] at hr
    exact hr
  · intro q
    rw [List.filter_map]
    have h1 : (ssort (fun a b => le a.2 b.2) pairs).filter
        ((fun s => kd s == q) ∘ Prod.fst)
        = (ssort (fun a b => le a.2 b.2) pairs).filter (fun pr => pr.2 == q) := by
      refine List.filter_congr (fun pr hpr => ?_)
      simp only [Function.comp]
      rw [hkey2 pr hpr]
    have h2 : (ssort (fun a b => le a.2 b.2) pairs).filter (fun pr => pr.2 == q)
        = pairs.filter (fun pr => pr.2 == q) := by
      refine ssort_filter _ _ ?_ pairs
      intro a b ha hb
      have ha2 : a.2 = q := by simpa using ha
      have hb2 : b.2 = q := by simpa using hb
      rw [ha2, hb2]
      have := htot q q
      rcases Bool.or_eq_true_iff.mp this with h | h <;> exact h
    have h3 : pairs.filter (fun pr => pr.2 == q)
        = pairs.filter ((fun s => kd s == q) ∘ Prod.fst) := by
      refine List.filter_congr (fun pr hpr => ?_)
      simp only [Function.comp]
      rw [hkey pr hpr]
    rw [h1, h2, h3, ← List.filter_map, hmap]

/-- C7: with an empty scored-segment list, `build_preview_lines` returns the
first `limit` text lines verbatim; with any scored segments, whenever it
returns, the selection is the `limit`-prefix of a stable descending sort of
the scored segments by score (permutation + descending + equal-score classes
keep input order), the rendered list is a stable ascending reorder of that
selection by start (missing or falsy start counts as 0), and each line is the
segment's preview rendering with the score formatted to 3 decimals. -/
theorem C7_build_preview :
    ∀ (speaker : String) (text_lines : List String) (scored : List JVal) (limit : ℕ),
      (scored = [] →
        build_preview_lines speaker text_lines scored limit = .ok (text_lines.take limit)) ∧
      (∀ out, scored ≠ [] →
        build_preview_lines speaker text_lines scored limit = .ok out →
        ∃ (S top chron : List JVal),
          topSegments scored limit = .ok top ∧
          chronoSort top = .ok chron ∧
          S.Perm scored ∧
          S.Pairwise (fun a b => scoreValD b ≤ scoreValD a) ∧
          (∀ q : ℚ, S.filter (fun s => scoreValD s == q)
            = scored.filter (fun s => scoreValD s == q)) ∧
          top = S.take limit ∧
          chron.Perm top ∧
          chron.Pairwise (fun a b => startOrD a ≤ startOrD b) ∧
          (∀ q : ℚ, chron.filter (fun s => startOrD s == q)
            = top.filter (fun s => startOrD s == q)) ∧
          List.Forall₂ (fun seg line => renderPreview speaker seg = .ok line) chron out) := by
  intro speaker text_lines scored limit
  constructor
  · intro h0
    subst h0
    unfold build_preview_lines
    rw [if_neg (fun hc => hc rfl)]
    rfl
  · intro out hne hb
    unfold build_preview_lines at hb
    rw [if_pos hne] at hb
    cases ht : topSegments scored limit with
    | error e => rw [ht] at hb; simp [Bind.bind, Except.bind] at hb
    | ok top =>
      rw [ht] at hb
      simp only [Bind.bind, Except.bind] at hb
      cases hcc : chronoSort top with
      | error e =>
        rw [hcc] at hb
        simp at hb
      | ok chron =>
        rw [hcc] at hb
        simp only [Bind.bind, Except.bind] at hb
        have hc := hcc
        unfold topSegments at ht
        cases hm : scored.mapM (fun s => do
            let k ← scoreKey s
            pure (s, k)) with
        | error e => rw [hm] at ht; simp [Bind.bind, Except.bind] at ht
        | ok pairs =>
          rw [hm] at ht
          simp only [Bind.bind, Except.bind, Pure.pure, Except.pure] at ht
          have htop : top
              = (((ssort (fun a b => decide (b.2 ≤ a.2)) pairs).map Prod.fst).take limit) :=
            (Except.ok.inj ht).symm
          unfold chronoSort at hc
          cases hm2 : top.mapM (fun s => do
              let k ← startKey s
              pure (s, k)) with
          | error e => rw [hm2] at hc; simp [Bind.bind, Except.bind] at hc
          | ok pairs2 =>
            rw [hm2] at hc
            simp only [Bind.bind, Except.bind, Pure.pure, Except.pure] at hc
            have hchron : chron
                = ((ssort (fun a b => decide (a.2 ≤ b.2)) pairs2).map Prod.fst) :=
              (Except.ok.inj hc).symm
            have hdesc := stable_sort_props scoreKey scoreValD (fun a b => decide (b ≤ a))
              (fun s k hk => scoreKey_ok_val hk)
              (fun a b c hab hbc => by
                simp only [decide_eq_true_eq] at hab hbc ⊢
                exact le_trans hbc hab)
              (fun a b => by
                simp only [Bool.or_eq_true, decide_eq_true_eq]
                exact le_total b a)
              hm
            have hasc := stable_sort_props startKey startOrD (fun a b => decide (a ≤ b))
              (fun s k hk => startKey_ok_val hk)
              (fun a b c hab hbc => by
                simp only [decide_eq_true_eq] at hab hbc ⊢
                exact le_trans hab hbc)
              (fun a b => by
                simp only [Bool.or_eq_true, decide_eq_true_eq]
                exact le_total a b)
              hm2
            refine ⟨(ssort (fun a b => decide (b.2 ≤ a.2)) pairs).map Prod.fst, top, chron,
              rfl, hcc, hdesc.1, ?_, hdesc.2.2, htop, ?_, ?_, ?_, mapM_ok_forall₂ hb⟩
            · exact hdesc.2.1.imp (fun h => of_decide_eq_true h)
            · rw [hchron]
              exact hasc.1
            · rw [hchron]
              exact hasc.2.1.imp (fun h => of_decide_eq_true h)
            · rw [hchron]
              exact hasc.2.2

theorem pySub_eq_tag (m : List (String × String)) (d1 d2 : Char) (rest : List Char) :
    pySub m ('S' :: 'P' :: 'E' :: 'A' :: 'K' :: 'E' :: 'R' :: '_' :: d1 :: d2 :: rest) false =
      if d1.isDigit && d2.isDigit && boundaryOk rest then
        ((lookupMap m (tagStr d1 d2)).getD (tagStr d1 d2)).data ++ pySub m rest true
      else 'S' :: pySub m ('P' :: 'E' :: 'A' :: 'K' :: 'E' :: 'R' :: '_' :: d1 :: d2 :: rest) true := rfl

theorem pySub_eq_true (m : List (String × String)) (c : Char) (rest : List Char) :
    pySub m (c :: rest) true = c :: pySub m rest (pyWordChar c) := by
  rw [pySub.eq_def]
  split
  · rename_i heq
    simp at heq
  · rename_i heq1 heq2
    simp at heq2
  · rename_i c2 rest2 heq hno
    injection heq with h1 h2
    subst h1
    subst h2
    rfl

theorem headTag?_some {cs : List Char} {d1 d2 : Char} {rest : List Char}
    (h : headTag? cs = some (d1, d2, rest)) :
    cs = tagChars d1 d2 ++ rest ∧ (d1.isDigit && d2.isDigit && boundaryOk rest) = true := by
  unfold headTag? at h
  split at h
  · rename_i d1' d2' rest'
    split at h
    · rename_i hg
      injection h with h2
      obtain ⟨e1, e2, e3⟩ : d1' = d1 ∧ d2' = d2 ∧ rest' = rest := by
        simpa using h2
      subst e1
      subst e2
      subst e3
      exact ⟨rfl, hg⟩
    · cases h
  · cases h

theorem headTag?_tag {d1 d2 : Char} {rest : List Char}
    (hg : (d1.isDigit && d2.isDigit && boundaryOk rest) = true) :
    headTag? (tagChars d1 d2 ++ rest) = some (d1, d2, rest) := by
  show (if d1.isDigit && d2.isDigit && boundaryOk rest then some (d1, d2, rest) else none)
      = some (d1, d2, rest)
  rw [if_pos hg]

theorem pySub_step_none (m : List (String × String)) (c : Char) (rest : List Char)
    (h : headTag? (c :: rest) = none) :
    pySub m (c :: rest) false = c :: pySub m rest (pyWordChar c) := by
  rw [pySub.eq_def]
  split
  · rename_i heq
    simp at heq
  · rename_i d1 d2 rest' heq hb
    injection heq with e1 e2
    subst e1
    subst e2
    have hg : (d1.isDigit && d2.isDigit && boundaryOk rest') = false := by
      cases hgc : (d1.isDigit && d2.isDigit && boundaryOk rest') with
      | true =>
        exfalso
        have h2 : headTag? (tagChars d1 d2 ++ rest') = none := h
        rw [headTag?_tag hgc] at h2
        cases h2
      | false => rfl
    rw [if_neg (by simp [hg])]
    have hw : pyWordChar 'S' = true := by decide
    rw [hw]
  · rename_i c2 rest2 heq hno
    injection heq with e1 e2
    subst e1
    subst e2
    rfl

theorem pySub_step_some (m : List (String × String)) {cs : List Char} {d1 d2 : Char}
    {rest : List Char} (h : headTag? cs = some (d1, d2, rest)) :
    pySub m cs false
      = ((lookupMap m (tagStr d1 d2)).getD (tagStr d1 d2)).data ++ pySub m rest true := by
  obtain ⟨hcs, hg⟩ := headTag?_some h
  subst hcs
  rw [show (tagChars d1 d2 ++ rest)
      = ('S' :: 'P' :: 'E' :: 'A' :: 'K' :: 'E' :: 'R' :: '_' :: d1 :: d2 :: rest) from rfl]
  rw [pySub_eq_tag, if_pos hg]

theorem digit_word {c : Char} (h : c.isDigit = true) : pyWordChar c = true := by
  simp [pyWordChar, Char.isAlphanum, h]

theorem headTag?_none_of_ne {c : Char} (rest : List Char) (h : c ≠ 'S') :
    headTag? (c :: rest) = none := by
  unfold headTag?
  split
  · rename_i heq
    injection heq with e1 e2
    exact absurd e1 h
  · rfl

theorem boundary_reflect (m : List (String × String)) (x : List Char) :
    boundaryOk (pySub m x true) = boundaryOk x := by
  cases x with
  | nil => rfl
  | cons c xs =>
    rw [pySub_eq_true]
    rfl

theorem state_irrel (m : List (String × String)) {cs : List Char}
    (h : boundaryOk cs = true) : ∀ w, pySub m cs w = pySub m cs true := by
  intro w
  cases w with
  | true => rfl
  | false =>
    cases cs with
    | nil => rfl
    | cons c rest =>
      have hw : pyWordChar c = false := by
        simpa [boundaryOk] using h
      have hne : c ≠ 'S' := by
        intro he
        rw [he] at hw
        exact absurd hw (by decide)
      rw [pySub_step_none m c rest (headTag?_none_of_ne rest hne), pySub_eq_true]

theorem wordtail_scan (m : List (String × String)) :
    ∀ (u T : List Char), (∀ c ∈ u, pyWordChar c = true) →
      pySub m (u ++ T) true = u ++ pySub m T true := by
  intro u
  induction u with
  | nil => intro T _; rfl
  | cons c u' ih =>
    intro T hword
    rw [List.cons_append, pySub_eq_true, hword c (List.mem_cons_self _ _),
      ih T (fun x hx => hword x (List.mem_cons_of_mem _ hx))]
    rfl

theorem append_word_boundary_unique :
    ∀ (u W T R : List Char), u ++ T = W ++ R →
      (∀ c ∈ u, pyWordChar c = true) → (∀ c ∈ W, pyWordChar c = true) →
      boundaryOk T = true → boundaryOk R = true → u = W ∧ T = R := by
  intro u
  induction u with
  | nil =>
    intro W T R h _ hW hT _
    cases W with
    | nil => exact ⟨rfl, h⟩
    | cons w W' =>
      exfalso
      rw [List.nil_append, List.cons_append] at h
      rw [h] at hT
      simp only [boundaryOk, Bool.not_eq_true'] at hT
      rw [hW w (List.mem_cons_self _ _)] at hT
      cases hT
  | cons c u' ih =>
    intro W T R h hu hW hT hR
    cases W with
    | nil =>
      exfalso
      rw [List.cons_append, List.nil_append] at h
      rw [← h] at hR
      simp only [boundaryOk, Bool.not_eq_true'] at hR
      rw [hu c (List.mem_cons_self _ _)] at hR
      cases hR
    | cons w W' =>
      rw [List.cons_append, List.cons_append] at h
      injection h with e1 e2
      obtain ⟨h1, h2⟩ := ih W' T R e2 (fun x hx => hu x (List.mem_cons_of_mem _ hx))
        (fun x hx => hW x (List.mem_cons_of_mem _ hx)) hT hR
      subst e1
      rw [h1]
      exact ⟨rfl, h2⟩

theorem tag_word {d1 d2 : Char} (h1 : d1.isDigit = true) (h2 : d2.isDigit = true) :
    ∀ c ∈ tagChars d1 d2, pyWordChar c = true := by
  intro c hc
  simp only [tagChars, List.mem_cons, List.not_mem_nil, or_false] at hc
  rcases hc with rfl | rfl | rfl | rfl | rfl | rfl | rfl | rfl | rfl | rfl
  · decide
  · decide
  · decide
  · decide
  · decide
  · decide
  · decide
  · decide
  · exact digit_word h1
  · exact digit_word h2

theorem peel_word_true (m : List (String × String)) :
    ∀ (u x R : List Char), (∀ c ∈ u, pyWordChar c = true) →
      pySub m x true = u ++ R → ∃ x', x = u ++ x' ∧ pySub m x' true = R := by
  intro u
  induction u with
  | nil => intro x R _ h; exact ⟨x, rfl, h⟩
  | cons c u' ih =>
    intro x R hword h
    cases x with
    | nil => simp [show pySub m [] true = [] from rfl] at h
    | cons a xs =>
      rw [pySub_eq_true] at h
      injection h with e1 e2
      subst e1
      rw [hword a (List.mem_cons_self _ _)] at e2
      obtain ⟨x', hx1, hx2⟩ := ih xs R (fun y hy => hword y (List.mem_cons_of_mem _ hy)) e2
      refine ⟨x', ?_, hx2⟩
      rw [hx1, List.cons_append]

theorem value_scan (m : List (String × String)) (u T : List Char)
    (hword : ∀ c ∈ u, pyWordChar c = true) (hnt : headTag? u = none)
    (hT : boundaryOk T = true) :
    pySub m (u ++ T) false = u ++ pySub m T true := by
  cases u with
  | nil =>
    rw [List.nil_append]
    exact state_irrel m hT false
  | cons c u' =>
    cases hh : headTag? (c :: u' ++ T) with
    | none =>
      rw [List.cons_append, pySub_step_none m _ _ (by rw [← List.cons_append]; exact hh),
        hword c (List.mem_cons_self _ _),
        wordtail_scan m u' T (fun x hx => hword x (List.mem_cons_of_mem _ hx))]
      rfl
    | some trip =>
      obtain ⟨d1, d2, R⟩ := trip
      exfalso
      obtain ⟨hsh, hg⟩ := headTag?_some hh
      simp only [Bool.and_eq_true] at hg
      obtain ⟨⟨hd1, hd2⟩, hbR⟩ := hg
      obtain ⟨hu, hTR⟩ := append_word_boundary_unique (c :: u') (tagChars d1 d2) T R
        hsh hword (tag_word hd1 hd2) hT hbR
      have hsome : headTag? (c :: u') = some (d1, d2, []) := by
        rw [hu]
        have ht := @headTag?_tag d1 d2 [] (by simp [hd1, hd2, boundaryOk])
        rw [List.append_nil] at ht
        exact ht
      rw [hnt] at hsome
      cases hsome

theorem rescan_safe (m : List (String × String)) (c : Char) (rest : List Char)
    (h : headTag? (c :: rest) = none) :
    headTag? (c :: pySub m rest (pyWordChar c)) = none := by
  by_cases hS : c = 'S'
  · subst hS
    rw [show pyWordChar 'S' = true from by decide]
    cases hh : headTag? ('S' :: pySub m rest true) with
    | none => rfl
    | some trip =>
      exfalso
      obtain ⟨d1, d2, R⟩ := trip
      obtain ⟨hsh, hg⟩ := headTag?_some hh
      simp only [Bool.and_eq_true] at hg
      obtain ⟨⟨hd1, hd2⟩, hbR⟩ := hg
      have hsh2 : pySub m rest true = ['P','E','A','K','E','R','_',d1,d2] ++ R := by
        have h9 : 'S' :: pySub m rest true
            = 'S' :: (['P','E','A','K','E','R','_',d1,d2] ++ R) := hsh
        simpa using h9
      have h9word : ∀ x ∈ (['P','E','A','K','E','R','_',d1,d2] : List Char),
          pyWordChar x = true := by
        intro x hx
        simp only [List.mem_cons, List.not_mem_nil, or_false] at hx
        rcases hx with rfl | rfl | rfl | rfl | rfl | rfl | rfl | rfl | rfl
        · decide
        · decide
        · decide
        · decide
        · decide
        · decide
        · decide
        · exact digit_word hd1
        · exact digit_word hd2
      obtain ⟨x', hx1, hx2⟩ := peel_word_true m _ rest R h9word hsh2
      have hbx : boundaryOk x' = true := by
        rw [← hx2, boundary_reflect] at hbR
        exact hbR
      have hsome : headTag? ('S' :: rest) = some (d1, d2, x') := by
        rw [hx1]
        have ht := @headTag?_tag d1 d2 x' (by simp [hd1, hd2, hbx])
        exact ht
      rw [h] at hsome
      cases hsome
  · exact headTag?_none_of_ne _ hS

theorem lookupMap_mem {m : List (String × String)} {k v : String}
    (h : lookupMap m k = some v) : ∃ p ∈ m, p.2 = v := by
  unfold lookupMap at h
  cases hf : m.find? (fun p => p.1 == k) with
  | none => rw [hf] at h; cases h
  | some p =>
    rw [hf] at h
    refine ⟨p, List.mem_of_find?_eq_some hf, ?_⟩
    injection h

theorem pySub_idem (m : List (String × String))
    (hv : ∀ p ∈ m, (∀ c ∈ p.2.data, pyWordChar c = true) ∧ headTag? p.2.data = none) :
    ∀ (n : ℕ) (cs : List Char), cs.length ≤ n → ∀ w,
      pySub m (pySub m cs w) w = pySub m cs w := by
  intro n
  induction n with
  | zero =>
    intro cs hlen w
    have h0 : cs = [] := List.length_eq_zero.mp (Nat.le_zero.mp hlen)
    subst h0
    rfl
  | succ k ih =>
    intro cs hlen w
    cases cs with
    | nil => rfl
    | cons c rest =>
      have hlen' : rest.length ≤ k := by
        simp only [List.length_cons] at hlen
        omega
      cases w with
      | true =>
        rw [pySub_eq_true, pySub_eq_true, ih rest hlen' (pyWordChar c)]
      | false =>
        cases hh : headTag? (c :: rest) with
        | none =>
          rw [pySub_step_none m c rest hh,
            pySub_step_none m c _ (rescan_safe m c rest hh),
            ih rest hlen' (pyWordChar c)]
        | some trip =>
          obtain ⟨d1, d2, rest'⟩ := trip
          rw [pySub_step_some m hh]
          obtain ⟨hsh, hg⟩ := headTag?_some hh
          simp only [Bool.and_eq_true] at hg
          obtain ⟨⟨hd1, hd2⟩, hbr⟩ := hg
          have hlen2 : rest'.length ≤ k := by
            have hle := congrArg List.length hsh
            simp only [tagChars, List.length_append, List.length_cons] at hle
            simp only [List.length_cons] at hlen
            omega
          have hT : boundaryOk (pySub m rest' true) = true := by
            rw [boundary_reflect]
            exact hbr
          cases hl : lookupMap m (tagStr d1 d2) with
          | none =>
            simp only [Option.getD_none]
            have hmt : headTag? ((tagStr d1 d2).data ++ pySub m rest' true)
                = some (d1, d2, pySub m rest' true) :=
              headTag?_tag (by simp [hd1, hd2, hT])
            rw [pySub_step_some m hmt, hl]
            simp only [Option.getD_none]
            rw [ih rest' hlen2 true]
          | some v =>
            simp only [Option.getD_some]
            obtain ⟨p, hp, hpv⟩ := lookupMap_mem hl
            obtain ⟨hvw, hvn⟩ := hv p hp
            rw [hpv] at hvw hvn
            rw [value_scan m v.data (pySub m rest' true) hvw hvn hT,
              ih rest' hlen2 true]

theorem dset_dset_self (d : JDict) (k : String) (v w : JVal) :
    dset (dset d k v) k w = dset d k w := by
  induction d with
  | nil => simp [dset]
  | cons a rest ih =>
    rcases a with ⟨k2, v2⟩
    simp only [dset]
    by_cases hk : k2 = k
    · simp [dset, hk]
    · have hne : (k2 == k) = false := by
        rw [beq_eq_false_iff_ne]
        exact hk
      simp only [dset, hne, Bool.false_eq_true, if_false, ih]

theorem mapM_ok_of_id {α : Type} {f : α → Except String α} :
    ∀ {l : List α}, (∀ x ∈ l, f x = .ok x) → l.mapM f = .ok l := by
  intro l
  induction l with
  | nil => intro _; rfl
  | cons x xs ih =>
    intro h
    rw [List.mapM_cons, h x (List.mem_cons_self _ _),
      ih (fun y hy => h y (List.mem_cons_of_mem _ hy))]
    rfl

theorem replaceSegSpeaker_idem (m : List (String × String))
    (hk : ∀ p ∈ m, lookupMap m p.2 = none)
    {s s2 : JVal} (h : replaceSegSpeaker m s = .ok s2) :
    replaceSegSpeaker m s2 = .ok s2 := by
  cases s with
  | obj d =>
    simp only [replaceSegSpeaker] at h
    cases hsp : dget d "speaker" with
    | arr xs => rw [hsp] at h; simp [Bind.bind, Except.bind, hashableInMapping] at h
    | obj d2 => rw [hsp] at h; simp [Bind.bind, Except.bind, hashableInMapping] at h
    | str s0 =>
      rw [hsp] at h
      simp only [hashableInMapping, Bind.bind, Except.bind] at h
      cases hb : m.any (fun p => p.1 == s0) with
      | false =>
        rw [hb] at h
        simp only [Bool.false_eq_true, if_false, Pure.pure, Except.pure] at h
        cases h
        simp only [replaceSegSpeaker, hashableInMapping, hsp, Bind.bind, Except.bind, hb]
        rfl
      | true =>
        rw [hb] at h
        simp only [if_true, hsp, Pure.pure, Except.pure] at h
        have hfind : ∃ p ∈ m, p.1 = s0 ∧ lookupMap m s0 = some p.2 := by
          cases hf : m.find? (fun p => p.1 == s0) with
          | none =>
            exfalso
            have hnone := List.find?_eq_none.mp hf
            rcases List.any_eq_true.mp hb with ⟨p, hp, hps⟩
            exact absurd hps (by simpa using hnone p hp)
          | some p =>
            refine ⟨p, List.mem_of_find?_eq_some hf, ?_, ?_⟩
            · have hps := List.find?_some hf
              simpa using hps
            · unfold lookupMap
              rw [hf]
              rfl
        rcases hfind with ⟨p, hp, hps, hlk⟩
        rw [hlk] at h
        simp only [Option.getD_some] at h
        cases h
        have hnone : lookupMap m p.2 = none := hk p hp
        have hany : m.any (fun q => q.1 == p.2) = false := by
          cases hany2 : m.any (fun q => q.1 == p.2) with
          | false => rfl
          | true =>
            exfalso
            rcases List.any_eq_true.mp hany2 with ⟨q, hq, hqs⟩
            unfold lookupMap at hnone
            cases hf2 : m.find? (fun r => r.1 == p.2) with
            | some r => rw [hf2] at hnone; cases hnone
            | none =>
              have hq2 := List.find?_eq_none.mp hf2 q hq
              exact absurd hqs (by simpa using hq2)
        simp only [replaceSegSpeaker, hashableInMapping, dget_dset_self, Bind.bind,
          Except.bind, hany]
        rfl
    | null =>
      rw [hsp] at h
      simp only [hashableInMapping, Bind.bind, Except.bind, Bool.false_eq_true, if_false,
        Pure.pure, Except.pure] at h
      cases h
      simp only [replaceSegSpeaker, hashableInMapping, hsp, Bind.bind, Except.bind]
      rfl
    | bool b =>
      rw [hsp] at h
      simp only [hashableInMapping, Bind.bind, Except.bind, Bool.false_eq_true, if_false,
        Pure.pure, Except.pure] at h
      cases h
      simp only [replaceSegSpeaker, hashableInMapping, hsp, Bind.bind, Except.bind]
      rfl
    | num q =>
      rw [hsp] at h
      simp only [hashableInMapping, Bind.bind, Except.bind, Bool.false_eq_true, if_false,
        Pure.pure, Except.pure] at h
      cases h
      simp only [replaceSegSpeaker, hashableInMapping, hsp, Bind.bind, Except.bind]
      rfl
  | null =>
    simp only [replaceSegSpeaker, Pure.pure, Except.pure] at h
    cases h
    rfl
  | bool b =>
    simp only [replaceSegSpeaker, Pure.pure, Except.pure] at h
    cases h
    rfl
  | num q =>
    simp only [replaceSegSpeaker, Pure.pure, Except.pure] at h
    cases h
    rfl
  | str s0 =>
    simp only [replaceSegSpeaker, Pure.pure, Except.pure] at h
    cases h
    rfl
  | arr xs =>
    simp only [replaceSegSpeaker, Pure.pure, Except.pure] at h
    cases h
    rfl

theorem forall₂_mem_right_gen {α β : Type} {R : α → β → Prop} :
    ∀ {l1 : List α} {l2 : List β}, List.Forall₂ R l1 l2 →
      ∀ b ∈ l2, ∃ a ∈ l1, R a b := by
  intro l1 l2 h
  induction h with
  | nil => intro b hb; simp at hb
  | cons hr hrest ih =>
    intro b hb
    rcases List.mem_cons.mp hb with rfl | hb2
    · exact ⟨_, List.mem_cons_self _ _, hr⟩
    · rcases ih b hb2 with ⟨a, ha, hab⟩
      exact ⟨a, List.mem_cons_of_mem _ ha, hab⟩

theorem replace_speakers_in_json_idem (m : List (String × String))
    (hk : ∀ p ∈ m, lookupMap m p.2 = none)
    {data out : JDict} (h : replace_speakers_in_json data m = .ok out) :
    replace_speakers_in_json out m = .ok out := by
  unfold replace_speakers_in_json at h ⊢
  cases hseg : dget data "segments" with
  | arr segs =>
    rw [hseg] at h
    simp only [Bind.bind, Except.bind] at h
    cases hm : segs.mapM (replaceSegSpeaker m) with
    | error e => rw [hm] at h; simp at h
    | ok segs2 =>
      rw [hm] at h
      simp only [Pure.pure, Except.pure] at h
      cases h
      rw [dget_dset_self]
      have hid : segs2.mapM (replaceSegSpeaker m) = .ok segs2 := by
        apply mapM_ok_of_id
        intro x hx
        rcases forall₂_mem_right_gen (mapM_ok_forall₂ hm) x hx with ⟨y, _, hyx⟩
        exact replaceSegSpeaker_idem m hk hyx
      simp only [Bind.bind, Except.bind, hid, Pure.pure, Except.pure, dset_dset_self]
  | null => rw [hseg] at h; cases h; rw [hseg]; rfl
  | bool b => rw [hseg] at h; cases h; rw [hseg]; rfl
  | num q => rw [hseg] at h; cases h; rw [hseg]; rfl
  | str s0 => rw [hseg] at h; cases h; rw [hseg]; rfl
  | obj d2 => rw [hseg] at h; cases h; rw [hseg]; rfl

/-- A mapping whose first value is another mapping key: SPEAKER_00 becomes
SPEAKER_01, which the mapping sends to HOST. -/
def c5Map : List (String × String) := [("SPEAKER_00", "SPEAKER_01"), ("SPEAKER_01", "HOST")]

def c5Data : JDict := [("segments", JVal.arr [JVal.obj [("speaker", JVal.str "SPEAKER_00")]])]

def c5Data1 : JDict := [("segments", JVal.arr [JVal.obj [("speaker", JVal.str "SPEAKER_01")]])]

def c5Data2 : JDict := [("segments", JVal.arr [JVal.obj [("speaker", JVal.str "HOST")]])]

/-- C5 counterexample: with a mapping sending SPEAKER_00 to SPEAKER_01 and
SPEAKER_01 to HOST, re-applying the relabeler to already-relabeled output is
not a no-op, in either the text or the JSON form: the first pass's output
SPEAKER_01 still matches the tag pattern and is itself a mapping key. -/
theorem C5_counterexample :
    replace_speakers_in_text "SPEAKER_00" c5Map = "SPEAKER_01" ∧
    replace_speakers_in_text (replace_speakers_in_text "SPEAKER_00" c5Map) c5Map = "HOST" ∧
    ("HOST" : String) ≠ "SPEAKER_01" ∧
    replace_speakers_in_json c5Data c5Map = .ok c5Data1 ∧
    replace_speakers_in_json c5Data1 c5Map = .ok c5Data2 ∧
    c5Data2 ≠ c5Data1 := by
  decide

/-- C5 (amended): the relabeler is idempotent for mappings whose values are
made of word characters only, do not themselves match the speaker-tag
pattern, and are not mapping keys — then a second application of
`replace_speakers_in_text` returns its input unchanged, and a second
application of `replace_speakers_in_json` returns the first output as-is.
Without those conditions a mapped name can be matched or remapped again, as
the counterexample shows. -/
theorem C5_relabel_idempotent :
    ∀ (m : List (String × String)),
      (∀ p ∈ m, (∀ c ∈ p.2.data, pyWordChar c = true) ∧ headTag? p.2.data = none ∧
        lookupMap m p.2 = none) →
      (∀ text : String,
        replace_speakers_in_text (replace_speakers_in_text text m) m
          = replace_speakers_in_text text m) ∧
      (∀ data out : JDict, replace_speakers_in_json data m = .ok out →
        replace_speakers_in_json out m = .ok out) := by
  intro m hm
  constructor
  · intro text
    unfold replace_speakers_in_text
    congr 1
    exact pySub_idem m (fun p hp => ⟨(hm p hp).1, (hm p hp).2.1⟩)
      text.data.length text.data le_rfl false
  · intro data out h
    exact replace_speakers_in_json_idem m (fun p hp => (hm p hp).2.2) h

def c5wMap : List (String × String) := [("SPEAKER_00", "ALICE"), ("SPEAKER_01", "BOB")]

/-- C5 witness: the amended idempotence applied to a concrete well-behaved
mapping and text. -/
theorem C5_witness :
    replace_speakers_in_text
        (replace_speakers_in_text "Hi SPEAKER_00, meet SPEAKER_01." c5wMap) c5wMap
      = replace_speakers_in_text "Hi SPEAKER_00, meet SPEAKER_01." c5wMap :=
  (C5_relabel_idempotent c5wMap (by decide)).1 "Hi SPEAKER_00, meet SPEAKER_01."
